import Mathlib

/-!
# A verification development for RingFS

A shallow embedding of the RingFS flash ring file system.  The embedding
follows the C source: the flash medium is modelled as structured state
(per-sector status and version words, per-slot status words and payload
bytes), the `program` primitive performs a bitwise AND of the new value
into the old one (NOR-flash semantics, as implemented by the test flash
simulator), and `sector_erase` resets a whole sector to all-ones.  All C
`int32_t` quantities are modelled as `Int`; the C `%` operator on them is
`Int.tmod`.  Loops of the C source are modelled with an explicit fuel
argument; the fuel is shown to be sufficient on in-range states via a ring
distance measure.
-/

/-! ## Status constants (enum sector_status / enum slot_status) -/

def SECTOR_ERASED : Nat := 0xFFFFFFFF
def SECTOR_FREE : Nat := 0xFFFFFF00
def SECTOR_IN_USE : Nat := 0xFFFF0000
def SECTOR_ERASING : Nat := 0xFF000000
def SECTOR_FORMATTING : Nat := 0x00000000

def SLOT_ERASED : Nat := 0xFFFFFFFF
def SLOT_RESERVED : Nat := 0xFFFFFF00
def SLOT_VALID : Nat := 0xFFFF0000
def SLOT_GARBAGE : Nat := 0xFF000000

/-! ## Data model -/

/-- struct ringfs_loc: a (sector, slot) location. -/
structure Loc where
  sector : Int
  slot : Int
deriving DecidableEq

/-- The flash medium, viewed at the granularity the C code accesses it:
the 32-bit sector status word (last 8 bytes of the sector), the 32-bit
sector version word right after it, the 32-bit slot status word at each
slot base, and the payload bytes of each slot. -/
structure Flash where
  sectorStatus : Int → Nat
  sectorVersion : Int → Nat
  slotStatus : Int → Int → Nat
  slotPayload : Int → Int → Int → Nat

/-- The constant part of a ringfs instance: the flash partition geometry
(struct ringfs_flash_partition) plus the fields set once by ringfs_init. -/
structure Config where
  sectorSize : Int
  sectorOffset : Int
  sectorCount : Int
  objectSize : Int
  version : Nat
  slotsPerSector : Int

/-- The mutable RAM part of a ringfs instance: the three location heads
and the page-coalescing cache. -/
structure RingFS where
  read : Loc
  write : Loc
  cursor : Loc
  cache : Int → Nat
  cacheFillingLevel : Int

/-- Result of an operation: the flash state, the RAM state, and the C
return code. -/
structure OpResult where
  flash : Flash
  fs : RingFS
  code : Int

/-- Result of ringfs_fetch, which additionally fills the caller's buffer. -/
structure FetchResult where
  flash : Flash
  fs : RingFS
  buf : Int → Nat
  code : Int

/-! ## Flash primitives: AND-programming and sector erase -/

/-- flash->program of a 32-bit word: bits can only be cleared. -/
def progWord (old newWord : Nat) : Nat := old &&& newWord

/-- flash->program of a single byte: bits can only be cleared. -/
def progByte (old newByte : Nat) : Nat := old &&& newByte

/-- flash->sector_erase: the whole sector becomes all-ones. -/
def flashSectorErase (f : Flash) (sector : Int) : Flash :=
  { sectorStatus := fun k => if k = sector then SECTOR_ERASED else f.sectorStatus k
    sectorVersion := fun k => if k = sector then 0xFFFFFFFF else f.sectorVersion k
    slotStatus := fun k j => if k = sector then SLOT_ERASED else f.slotStatus k j
    slotPayload := fun k j i => if k = sector then 0xFF else f.slotPayload k j i }

/-- Program the sector status word (the write half of _sector_set_status). -/
def flashProgSectorStatus (f : Flash) (sector : Int) (v : Nat) : Flash :=
  { f with sectorStatus := fun k =>
      if k = sector then progWord (f.sectorStatus k) v else f.sectorStatus k }

/-- Program the sector version word (done inside _sector_free). -/
def flashProgSectorVersion (f : Flash) (sector : Int) (v : Nat) : Flash :=
  { f with sectorVersion := fun k =>
      if k = sector then progWord (f.sectorVersion k) v else f.sectorVersion k }

/-- Program the slot status word (the write half of _slot_set_status). -/
def flashProgSlotStatus (f : Flash) (loc : Loc) (v : Nat) : Flash :=
  { f with slotStatus := fun k j =>
      if k = loc.sector ∧ j = loc.slot then progWord (f.slotStatus k j) v
      else f.slotStatus k j }

/-- Program `size` payload bytes of a slot from the source buffer `src`
(the flash->program call in ringfs_append). -/
def flashProgPayload (f : Flash) (loc : Loc) (src : Int → Nat) (size : Int) : Flash :=
  { f with slotPayload := fun k j i =>
      if k = loc.sector ∧ j = loc.slot ∧ 0 ≤ i ∧ i < size then
        progByte (f.slotPayload k j i) (src i)
      else f.slotPayload k j i }

/-! ## Address arithmetic (from the source's _sector_address / _slot_address
and the offset computations inside the sector/slot accessors; the C
constants are sizeof(struct sector_header) = 8, sizeof(struct slot_header)
= 4, offsetof(status) = 0, offsetof(version) = 4) -/

def _sector_address (c : Config) (sector_offset : Int) : Int :=
  (c.sectorOffset + sector_offset) * c.sectorSize

/-- Byte address at which _sector_get_status / _sector_set_status access
the sector status word: sector_size - sizeof(sector_header) + offsetof(status). -/
def sector_status_address (c : Config) (sector : Int) : Int :=
  _sector_address c sector + (c.sectorSize - 8 + 0)

/-- Byte address at which _sector_free programs the version word:
sector_size - sizeof(sector_header) + offsetof(version). -/
def sector_version_address (c : Config) (sector : Int) : Int :=
  _sector_address c sector + (c.sectorSize - 8 + 4)

def _slot_address (c : Config) (loc : Loc) : Int :=
  _sector_address c loc.sector + (4 + c.objectSize) * loc.slot

/-- Byte address of the slot status word: slot_addr + offsetof(status). -/
def slot_status_address (c : Config) (loc : Loc) : Int :=
  _slot_address c loc + 0

/-- Byte address of the slot payload: slot_addr + sizeof(struct slot_header). -/
def slot_payload_address (c : Config) (loc : Loc) : Int :=
  _slot_address c loc + 4

/-! ## Sector and slot lifecycle operations -/

/-- _sector_free: program ERASING, physically erase, program the version
word, program FREE. -/
def _sector_free (c : Config) (f : Flash) (sector : Int) : Flash :=
  let f1 := flashProgSectorStatus f sector SECTOR_ERASING
  let f2 := flashSectorErase f1 sector
  let f3 := flashProgSectorVersion f2 sector c.version
  flashProgSectorStatus f3 sector SECTOR_FREE

/-! ## Location arithmetic -/

/-- _loc_advance_sector: move to the beginning of the next sector,
wrapping past the last sector. -/
def _loc_advance_sector (c : Config) (loc : Loc) : Loc :=
  let l : Loc := { sector := loc.sector + 1, slot := 0 }
  if c.sectorCount ≤ l.sector then { l with sector := 0 } else l

/-- _loc_advance_slot: move to the next slot, advancing the sector too if
needed. -/
def _loc_advance_slot (c : Config) (loc : Loc) : Loc :=
  let l : Loc := { loc with slot := loc.slot + 1 }
  if c.slotsPerSector ≤ l.slot then _loc_advance_sector c l else l

/-! ## ringfs_init -/

/-- ringfs_init: record the configuration, precompute slots_per_sector =
(sector_size - sizeof(sector_header)) / (sizeof(slot_header) + object_size)
(C truncating division), zero the cache and its filling level. -/
def ringfs_init (sectorSize sectorOffset sectorCount : Int) (version : Nat)
    (objectSize : Int) (fs : RingFS) : Config × RingFS :=
  ({ sectorSize := sectorSize
     sectorOffset := sectorOffset
     sectorCount := sectorCount
     objectSize := objectSize
     version := version
     slotsPerSector := (sectorSize - 8).tdiv (4 + objectSize) },
   { fs with cacheFillingLevel := 0, cache := fun _ => 0 })

/-! ## ringfs_format -/

/-- The list of sector indices 0, 1, ..., n-1 starting at i. -/
def intsFrom (i : Int) : Nat → List Int
  | 0 => []
  | n + 1 => i :: intsFrom (i + 1) n

/-- Sector indices 0 .. sector_count - 1. -/
def sectorList (c : Config) : List Int := intsFrom 0 c.sectorCount.toNat

/-- ringfs_format: program every sector's status to FORMATTING, then
_sector_free every sector, then reset all three heads to (0, 0). -/
def ringfs_format (c : Config) (f : Flash) (fs : RingFS) : OpResult :=
  let f1 := (sectorList c).foldl (fun acc k => flashProgSectorStatus acc k SECTOR_FORMATTING) f
  let f2 := (sectorList c).foldl (fun acc k => _sector_free c acc k) f1
  { flash := f2
    fs := { fs with read := ⟨0, 0⟩, write := ⟨0, 0⟩, cursor := ⟨0, 0⟩ }
    code := 0 }

/-! ## ringfs_scan -/

/-- The loop state of the sector pass of ringfs_scan. -/
structure ScanSt where
  flash : Flash
  prev : Nat
  readSector : Int
  writeSector : Int
  freeSeen : Bool
  usedSeen : Bool

/-- One iteration of the sector pass of ringfs_scan on one sector.
`Sum.inl` is the early `return -1` (carrying the flash as repaired so
far); note the version word is read together with the status word before
any repair, so the version check uses the pre-repair version. -/
def scanStep (c : Config) (st : ScanSt) (sector : Int) : Sum Flash ScanSt :=
  let hstatus := st.flash.sectorStatus sector
  let hversion := st.flash.sectorVersion sector
  if hstatus = SECTOR_FORMATTING then Sum.inl st.flash
  else
    let doRepair := hstatus = SECTOR_ERASING ∨ hstatus = SECTOR_ERASED
    let flash := if doRepair then _sector_free c st.flash sector else st.flash
    let hstatus := if doRepair then SECTOR_FREE else hstatus
    if hstatus ≠ SECTOR_FREE ∧ hstatus ≠ SECTOR_IN_USE then Sum.inl flash
    else if hversion ≠ c.version then Sum.inl flash
    else
      Sum.inr
        { flash := flash
          prev := hstatus
          readSector :=
            if hstatus = SECTOR_IN_USE ∧ st.prev = SECTOR_FREE then sector
            else st.readSector
          writeSector :=
            if hstatus = SECTOR_FREE ∧ st.prev = SECTOR_IN_USE then sector - 1
            else st.writeSector
          freeSeen := st.freeSeen || decide (hstatus = SECTOR_FREE)
          usedSeen := st.usedSeen || decide (hstatus = SECTOR_IN_USE) }

/-- The sector pass of ringfs_scan over a list of sectors. -/
def scanPass1 (c : Config) : List Int → ScanSt → Sum Flash ScanSt
  | [], st => Sum.inr st
  | k :: rest, st =>
    match scanStep c st k with
    | Sum.inl f => Sum.inl f
    | Sum.inr st' => scanPass1 c rest st'

/-- The initial loop state of the sector pass: previous status FREE,
read_sector 0, write_sector sector_count - 1, nothing seen yet. -/
def initScanSt (c : Config) (f : Flash) : ScanSt :=
  { flash := f
    prev := SECTOR_FREE
    readSector := 0
    writeSector := c.sectorCount - 1
    freeSeen := false
    usedSeen := false }

def scanPass1Result (c : Config) (f : Flash) : Sum Flash ScanSt :=
  scanPass1 c (sectorList c) (initScanSt c f)

/-- Fuel that dominates the length of any ring traversal. -/
def scanFuel (c : Config) : Nat :=
  c.sectorCount.toNat * c.slotsPerSector.toNat + 1

/-- Did the sector pass succeed with a FREE sector observed?  (ringfs_scan
returns 0 exactly when this holds.) -/
def scanOk (c : Config) (f : Flash) : Bool :=
  match scanPass1Result c f with
  | Sum.inl _ => false
  | Sum.inr st => st.freeSeen

/-- The flash state after the sector pass (repairs included). -/
def scanFlash (c : Config) (f : Flash) : Flash :=
  match scanPass1Result c f with
  | Sum.inl f' => f'
  | Sum.inr st => st.flash

/-- The write sector chosen by the sector pass (0 if no IN_USE sector). -/
def scanWriteSector (c : Config) (f : Flash) : Int :=
  match scanPass1Result c f with
  | Sum.inl _ => 0
  | Sum.inr st => if st.usedSeen = false then 0 else st.writeSector

/-- The read sector chosen by the sector pass. -/
def scanReadSector (c : Config) (f : Flash) : Int :=
  match scanPass1Result c f with
  | Sum.inl _ => 0
  | Sum.inr st => st.readSector

/-- The write-head loop of ringfs_scan: skip the occupied slots at the
beginning of the write sector, stopping at the first ERASED slot or when
the sector boundary is crossed. -/
def scanWriteLoop (c : Config) (f : Flash) (ws : Int) : Nat → Loc → Loc
  | 0, loc => loc
  | fuel + 1, loc =>
    if loc.sector = ws then
      if f.slotStatus loc.sector loc.slot = SLOT_ERASED then loc
      else scanWriteLoop c f ws fuel (_loc_advance_slot c loc)
    else loc

/-- The read-head loop of ringfs_scan: skip non-VALID slots until a VALID
slot is found or the write head is reached. -/
def scanReadLoop (c : Config) (f : Flash) (wloc : Loc) : Nat → Loc → Loc
  | 0, loc => loc
  | fuel + 1, loc =>
    if loc = wloc then loc
    else if f.slotStatus loc.sector loc.slot = SLOT_VALID then loc
    else scanReadLoop c f wloc fuel (_loc_advance_slot c loc)

/-- The write head reconstructed by a successful scan. -/
def scanWriteLoc (c : Config) (f : Flash) : Loc :=
  scanWriteLoop c (scanFlash c f) (scanWriteSector c f) (scanFuel c)
    ⟨scanWriteSector c f, 0⟩

/-- The read head reconstructed by a successful scan. -/
def scanReadLoc (c : Config) (f : Flash) : Loc :=
  scanReadLoop c (scanFlash c f) (scanWriteLoc c f) (scanFuel c)
    ⟨scanReadSector c f, 0⟩

/-- ringfs_scan. -/
def ringfs_scan (c : Config) (f : Flash) (fs : RingFS) : OpResult :=
  if scanOk c f then
    { flash := scanFlash c f
      fs := { fs with write := scanWriteLoc c f, read := scanReadLoc c f,
                      cursor := scanReadLoc c f }
      code := 0 }
  else
    { flash := scanFlash c f, fs := fs, code := -1 }

/-! ## Counting -/

def ringfs_capacity (c : Config) : Int :=
  c.slotsPerSector * (c.sectorCount - 1)

/-- ringfs_count_estimate (O(1)): C computes
((write.sector - read.sector + sector_count) % sector_count) *
slots_per_sector + write.slot - read.slot with C truncating %. -/
def ringfs_count_estimate (c : Config) (fs : RingFS) : Int :=
  let sector_diff := (fs.write.sector - fs.read.sector + c.sectorCount).tmod c.sectorCount
  sector_diff * c.slotsPerSector + fs.write.slot - fs.read.slot

/-- The loop of ringfs_count_exact. -/
def countLoop (c : Config) (f : Flash) (wloc : Loc) : Nat → Loc → Int → Int
  | 0, _, count => count
  | fuel + 1, loc, count =>
    if loc = wloc then count
    else
      countLoop c f wloc fuel (_loc_advance_slot c loc)
        (if f.slotStatus loc.sector loc.slot = SLOT_VALID then count + 1 else count)

/-- ringfs_count_exact (O(n)): iterate from read to write counting VALID
slots. -/
def ringfs_count_exact (c : Config) (f : Flash) (fs : RingFS) : Int :=
  countLoop c f fs.write (scanFuel c) fs.read 0

/-! ## ringfs_append -/

/-- The slot commit sequence of ringfs_append: program RESERVED, program
the payload bytes, program VALID, advance the write head. -/
def appendCommit (c : Config) (f : Flash) (fs : RingFS) (object : Int → Nat) : OpResult :=
  let f1 := flashProgSlotStatus f fs.write SLOT_RESERVED
  let f2 := flashProgPayload f1 fs.write object c.objectSize
  let f3 := flashProgSlotStatus f2 fs.write SLOT_VALID
  { flash := f3
    fs := { fs with write := _loc_advance_slot c fs.write }
    code := 0 }

/-- The next sector ahead of the write head: (write.sector + 1) % sector_count. -/
def appendNextSector (c : Config) (fs : RingFS) : Int :=
  (fs.write.sector + 1).tmod c.sectorCount

/-- The first block of ringfs_append: if the next sector is not FREE, move
the read and cursor heads out of it (by a sector advance) and free it. -/
def appendPrep (c : Config) (f : Flash) (fs : RingFS) : Flash × RingFS :=
  if f.sectorStatus (appendNextSector c fs) ≠ SECTOR_FREE then
    let fs1 :=
      if fs.read.sector = appendNextSector c fs then
        { fs with read := _loc_advance_sector c fs.read }
      else fs
    let fs2 :=
      if fs1.cursor.sector = appendNextSector c fs then
        { fs1 with cursor := _loc_advance_sector c fs1.cursor }
      else fs1
    (_sector_free c f (appendNextSector c fs), fs2)
  else (f, fs)

/-- ringfs_append: ensure the next sector is FREE (moving the read and
cursor heads out of the way and freeing it if not), promote the write
sector from FREE to IN_USE (any other non-IN_USE status is corruption,
return -1), then commit the slot. -/
def ringfs_append (c : Config) (f : Flash) (fs : RingFS) (object : Int → Nat) : OpResult :=
  let f1 := (appendPrep c f fs).1
  let fs3 := (appendPrep c f fs).2
  let wstatus := f1.sectorStatus fs3.write.sector
  if wstatus = SECTOR_FREE then
    appendCommit c (flashProgSectorStatus f1 fs3.write.sector SECTOR_IN_USE) fs3 object
  else if wstatus ≠ SECTOR_IN_USE then
    { flash := f1, fs := fs3, code := -1 }
  else
    appendCommit c f1 fs3 object

/-! ## ringfs_append_to_cache -/

/-- CACHE_SIZE: a 256-byte page minus the 4-byte slot header. -/
def CACHE_SIZE : Int := 256 - 4

/-- memcpy of `n` bytes from `src` into `dst` at offset `off`. -/
def memcpyAt (dst : Int → Nat) (off : Int) (src : Int → Nat) (n : Int) : Int → Nat :=
  fun i => if off ≤ i ∧ i < off + n then src (i - off) else dst i

/-- ringfs_append_to_cache: if the incoming bytes do not fit, flush the
cache as one object via ringfs_append (on success the return value is
rewritten to `size`) and reset the filling level; then copy the bytes in
at the filling level and advance it. -/
def ringfs_append_to_cache (c : Config) (f : Flash) (fs : RingFS)
    (object : Int → Nat) (size : Int) : OpResult :=
  if CACHE_SIZE < size + fs.cacheFillingLevel then
    let r := ringfs_append c f fs fs.cache
    let res := if r.code = 0 then size else r.code
    let fs1 := { r.fs with cacheFillingLevel := 0 }
    { flash := r.flash
      fs := { fs1 with cache := memcpyAt fs1.cache fs1.cacheFillingLevel object size,
                       cacheFillingLevel := fs1.cacheFillingLevel + size }
      code := res }
  else
    { flash := f
      fs := { fs with cache := memcpyAt fs.cache fs.cacheFillingLevel object size,
                      cacheFillingLevel := fs.cacheFillingLevel + size }
      code := size }

/-! ## ringfs_fetch -/

/-- The flash->read of a slot's payload into the caller's buffer. -/
def readPayloadInto (c : Config) (f : Flash) (loc : Loc) (buf : Int → Nat) : Int → Nat :=
  fun i => if 0 ≤ i ∧ i < c.objectSize then f.slotPayload loc.sector loc.slot i else buf i

/-- The loop of ringfs_fetch: advance the cursor in search of a VALID
slot; on success read its payload, advance past it and return 0; return -1
when the cursor meets the write head. -/
def fetchLoop (c : Config) (f : Flash) (wloc : Loc) :
    Nat → Loc → (Int → Nat) → Loc × (Int → Nat) × Int
  | 0, loc, buf => (loc, buf, -1)
  | fuel + 1, loc, buf =>
    if loc = wloc then (loc, buf, -1)
    else if f.slotStatus loc.sector loc.slot = SLOT_VALID then
      (_loc_advance_slot c loc, readPayloadInto c f loc buf, 0)
    else fetchLoop c f wloc fuel (_loc_advance_slot c loc) buf

/-- ringfs_fetch. -/
def ringfs_fetch (c : Config) (f : Flash) (fs : RingFS) (buf : Int → Nat) : FetchResult :=
  let r := fetchLoop c f fs.write (scanFuel c) fs.cursor buf
  { flash := f, fs := { fs with cursor := r.1 }, buf := r.2.1, code := r.2.2 }

/-! ## ringfs_discard, ringfs_item_discard, ringfs_rewind, ringfs_erase_sector -/

/-- The loop of ringfs_discard: mark slots GARBAGE from read up to the
cursor. -/
def discardLoop (c : Config) : Nat → Flash → Loc → Loc → Flash × Loc
  | 0, f, loc, _ => (f, loc)
  | fuel + 1, f, loc, target =>
    if loc = target then (f, loc)
    else discardLoop c fuel (flashProgSlotStatus f loc SLOT_GARBAGE)
      (_loc_advance_slot c loc) target

/-- ringfs_discard. -/
def ringfs_discard (c : Config) (f : Flash) (fs : RingFS) : OpResult :=
  let r := discardLoop c (scanFuel c) f fs.read fs.cursor
  { flash := r.1, fs := { fs with read := r.2 }, code := 0 }

/-- ringfs_item_discard: unconditionally mark the slot at read GARBAGE and
advance read by one slot. -/
def ringfs_item_discard (c : Config) (f : Flash) (fs : RingFS) : OpResult :=
  { flash := flashProgSlotStatus f fs.read SLOT_GARBAGE
    fs := { fs with read := _loc_advance_slot c fs.read }
    code := 0 }

/-- ringfs_rewind: cursor back to read. -/
def ringfs_rewind (f : Flash) (fs : RingFS) : OpResult :=
  { flash := f, fs := { fs with cursor := fs.read }, code := 0 }

/-- ringfs_erase_sector: just _sector_free. -/
def ringfs_erase_sector (c : Config) (f : Flash) (sector2erase : Int) : Flash :=
  _sector_free c f sector2erase

/-! ## Ring geometry: ranges, linear index, ring distance -/

/-- A location is within the partition geometry. -/
def inRange (c : Config) (l : Loc) : Prop :=
  0 ≤ l.sector ∧ l.sector < c.sectorCount ∧ 0 ≤ l.slot ∧ l.slot < c.slotsPerSector

instance (c : Config) (l : Loc) : Decidable (inRange c l) := by
  unfold inRange
  exact inferInstance

/-- Total number of slots in the partition. -/
def ringN (c : Config) : Int := c.sectorCount * c.slotsPerSector

/-- Linear index of a location. -/
def lidx (c : Config) (l : Loc) : Int := l.sector * c.slotsPerSector + l.slot

/-- Number of slot advances needed to go from `a` to `b` around the ring. -/
def ringDist (c : Config) (a b : Loc) : Int :=
  if lidx c a ≤ lidx c b then lidx c b - lidx c a else lidx c b + ringN c - lidx c a

/-- Iterated slot advance. -/
def locIter (c : Config) : Nat → Loc → Loc
  | 0, l => l
  | k + 1, l => locIter c k (_loc_advance_slot c l)

/-- The sector status as treated by the scan pass after its repair step:
ERASING and ERASED sectors are repaired (via _sector_free) and treated as
FREE for the remainder of the pass; other statuses are kept. -/
def sectorRepairedStatus (f : Flash) (k : Int) : Nat :=
  if f.sectorStatus k = SECTOR_ERASING ∨ f.sectorStatus k = SECTOR_ERASED then SECTOR_FREE
  else f.sectorStatus k

/-- The per-sector failure condition of the scan pass: FORMATTING status,
a status that is neither FREE nor IN_USE even after repair, or a version
word (as read before any repair) different from the configured version. -/
def sectorBad (c : Config) (f : Flash) (k : Int) : Prop :=
  f.sectorStatus k = SECTOR_FORMATTING ∨
  (sectorRepairedStatus f k ≠ SECTOR_FREE ∧ sectorRepairedStatus f k ≠ SECTOR_IN_USE) ∨
  f.sectorVersion k ≠ c.version

instance (c : Config) (f : Flash) (k : Int) : Decidable (sectorBad c f k) := by
  unfold sectorBad
  exact inferInstance

/-! ## Facts about AND-programming -/

theorem progWord_formatting (x : Nat) : progWord x SECTOR_FORMATTING = SECTOR_FORMATTING := by
  simp [progWord, SECTOR_FORMATTING]

theorem progWord_id (v : Nat) (h : v < 2 ^ 32) : progWord SECTOR_ERASED v = v := by
  have h1 : SECTOR_ERASED = 2 ^ 32 - 1 := by norm_num [SECTOR_ERASED]
  rw [progWord, h1, Nat.land_comm, Nat.and_pow_two_sub_one_eq_mod, Nat.mod_eq_of_lt h]

theorem progByte_id (b : Nat) (h : b < 2 ^ 8) : progByte 0xFF b = b := by
  have h1 : (0xFF : Nat) = 2 ^ 8 - 1 := by norm_num
  rw [progByte, h1, Nat.land_comm, Nat.and_pow_two_sub_one_eq_mod, Nat.mod_eq_of_lt h]

theorem progWord_erased_free : progWord SECTOR_ERASED SECTOR_FREE = SECTOR_FREE := by decide

theorem progWord_free_in_use : progWord SECTOR_FREE SECTOR_IN_USE = SECTOR_IN_USE := by decide

theorem progWord_erased_reserved : progWord SLOT_ERASED SLOT_RESERVED = SLOT_RESERVED := by
  decide

theorem progWord_reserved_valid : progWord SLOT_RESERVED SLOT_VALID = SLOT_VALID := by decide

/-! ## Field lemmas for _sector_free -/

theorem _sector_free_status_self (c : Config) (f : Flash) (k : Int) :
    (_sector_free c f k).sectorStatus k = SECTOR_FREE := by
  simp [_sector_free, flashProgSectorStatus, flashProgSectorVersion, flashSectorErase,
    progWord_erased_free]

theorem _sector_free_version_self (c : Config) (f : Flash) (k : Int)
    (hv : c.version < 2 ^ 32) :
    (_sector_free c f k).sectorVersion k = c.version := by
  simp [_sector_free, flashProgSectorStatus, flashProgSectorVersion, flashSectorErase]
  exact progWord_id c.version hv

theorem _sector_free_slotStatus_self (c : Config) (f : Flash) (k j : Int) :
    (_sector_free c f k).slotStatus k j = SLOT_ERASED := by
  simp [_sector_free, flashProgSectorStatus, flashProgSectorVersion, flashSectorErase]

theorem _sector_free_payload_self (c : Config) (f : Flash) (k j i : Int) :
    (_sector_free c f k).slotPayload k j i = 0xFF := by
  simp [_sector_free, flashProgSectorStatus, flashProgSectorVersion, flashSectorErase]

theorem _sector_free_other (c : Config) (f : Flash) (k k' : Int) (h : k' ≠ k) :
    (_sector_free c f k).sectorStatus k' = f.sectorStatus k' ∧
    (_sector_free c f k).sectorVersion k' = f.sectorVersion k' ∧
    (∀ j, (_sector_free c f k).slotStatus k' j = f.slotStatus k' j) ∧
    (∀ j i, (_sector_free c f k).slotPayload k' j i = f.slotPayload k' j i) := by
  simp [_sector_free, flashProgSectorStatus, flashProgSectorVersion, flashSectorErase, h]

/-! ## Location advance, linear index and ring distance -/

theorem advance_slot_eq (c : Config) (l : Loc) :
    _loc_advance_slot c l =
      if c.slotsPerSector ≤ l.slot + 1 then
        (if c.sectorCount ≤ l.sector + 1 then ⟨0, 0⟩ else ⟨l.sector + 1, 0⟩)
      else ⟨l.sector, l.slot + 1⟩ := rfl

theorem advance_slot_mk (c : Config) (ws j : Int) :
    _loc_advance_slot c ⟨ws, j⟩ =
      if c.slotsPerSector ≤ j + 1 then
        (if c.sectorCount ≤ ws + 1 then ⟨0, 0⟩ else ⟨ws + 1, 0⟩)
      else ⟨ws, j + 1⟩ := rfl

theorem int_mul_succ_le (s t sps : Int) (h1 : s < t) (h3 : 0 < sps) :
    s * sps + sps ≤ t * sps := by
  have h4 : (s + 1) * sps ≤ t * sps := mul_le_mul_of_nonneg_right (by omega) (by omega)
  nlinarith

theorem advance_inRange {c : Config} {l : Loc} (h : inRange c l) :
    inRange c (_loc_advance_slot c l) := by
  obtain ⟨h1, h2, h3, h4⟩ := h
  rw [advance_slot_eq]
  split_ifs with ha hb <;> simp [inRange] <;> omega

theorem lidx_advance {c : Config} {l : Loc} (h : inRange c l) :
    (lidx c (_loc_advance_slot c l) = lidx c l + 1 ∧ lidx c l + 1 < ringN c) ∨
    (lidx c (_loc_advance_slot c l) = 0 ∧ lidx c l + 1 = ringN c) := by
  obtain ⟨h1, h2, h3, h4⟩ := h
  rw [advance_slot_eq]
  split_ifs with ha hb
  · right
    have hsec : l.sector = c.sectorCount - 1 := by omega
    have hslot : l.slot = c.slotsPerSector - 1 := by omega
    constructor
    · simp [lidx]
    · have e1 : c.sectorCount * c.slotsPerSector =
          (l.sector + 1) * c.slotsPerSector := by rw [show c.sectorCount = l.sector + 1 by omega]
      have e2 : (l.sector + 1) * c.slotsPerSector =
          l.sector * c.slotsPerSector + c.slotsPerSector := by ring
      simp only [lidx, ringN]
      omega
  · left
    have hm := int_mul_succ_le (l.sector + 1) c.sectorCount c.slotsPerSector (by omega) (by omega)
    have e2 : (l.sector + 1) * c.slotsPerSector =
        l.sector * c.slotsPerSector + c.slotsPerSector := by ring
    simp only [lidx, ringN]
    omega
  · left
    have hm := int_mul_succ_le l.sector c.sectorCount c.slotsPerSector h2 (by omega)
    simp only [lidx, ringN]
    omega

theorem lidx_nonneg {c : Config} {l : Loc} (h : inRange c l) : 0 ≤ lidx c l := by
  obtain ⟨h1, h2, h3, h4⟩ := h
  have hm : 0 ≤ l.sector * c.slotsPerSector := mul_nonneg h1 (by omega)
  simp only [lidx]
  omega

theorem lidx_lt {c : Config} {l : Loc} (h : inRange c l) : lidx c l < ringN c := by
  obtain ⟨h1, h2, h3, h4⟩ := h
  have hm := int_mul_succ_le l.sector c.sectorCount c.slotsPerSector h2 (by omega)
  simp only [lidx, ringN]
  omega

theorem lidx_inj {c : Config} {a b : Loc} (ha : inRange c a) (hb : inRange c b)
    (h : lidx c a = lidx c b) : a = b := by
  have hsps : 0 < c.slotsPerSector := by obtain ⟨_, _, h3, h4⟩ := ha; omega
  by_cases hs : a.sector = b.sector
  · have hslot : a.slot = b.slot := by
      simp only [lidx, hs] at h
      omega
    cases a; cases b
    simp_all
  · exfalso
    obtain ⟨ha1, ha2, ha3, ha4⟩ := ha
    obtain ⟨hb1, hb2, hb3, hb4⟩ := hb
    rcases lt_or_gt_of_ne hs with hlt | hgt
    · have hm := int_mul_succ_le a.sector b.sector c.slotsPerSector hlt hsps
      simp only [lidx] at h
      omega
    · have hm := int_mul_succ_le b.sector a.sector c.slotsPerSector hgt hsps
      simp only [lidx] at h
      omega

theorem ringDist_nonneg {c : Config} {a b : Loc} (ha : inRange c a) (hb : inRange c b) :
    0 ≤ ringDist c a b := by
  have h1 := lidx_nonneg ha
  have h2 := lidx_nonneg hb
  have h3 := lidx_lt ha
  have h4 := lidx_lt hb
  simp only [ringDist]
  split_ifs <;> omega

theorem ringDist_lt {c : Config} {a b : Loc} (ha : inRange c a) (hb : inRange c b) :
    ringDist c a b < ringN c := by
  have h1 := lidx_nonneg ha
  have h2 := lidx_nonneg hb
  have h3 := lidx_lt ha
  have h4 := lidx_lt hb
  simp only [ringDist]
  split_ifs <;> omega

theorem ringDist_eq_zero_iff {c : Config} {a b : Loc} (ha : inRange c a) (hb : inRange c b) :
    ringDist c a b = 0 ↔ a = b := by
  constructor
  · intro h
    apply lidx_inj ha hb
    have h3 := lidx_lt ha
    have h2 := lidx_nonneg hb
    simp only [ringDist] at h
    split_ifs at h <;> omega
  · intro h
    subst h
    simp [ringDist]

theorem ringDist_advance {c : Config} {a b : Loc} (ha : inRange c a) (hb : inRange c b)
    (hne : a ≠ b) :
    ringDist c (_loc_advance_slot c a) b = ringDist c a b - 1 := by
  have hne' : lidx c a ≠ lidx c b := fun h => hne (lidx_inj ha hb h)
  have h1 := lidx_nonneg ha
  have h2 := lidx_nonneg hb
  have h3 := lidx_lt ha
  have h4 := lidx_lt hb
  rcases lidx_advance ha with ⟨e, hlt⟩ | ⟨e, hN⟩ <;>
    · simp only [ringDist, e]
      split_ifs <;> omega

theorem locIter_succ (c : Config) (k : Nat) (l : Loc) :
    locIter c (k + 1) l = _loc_advance_slot c (locIter c k l) := by
  induction k generalizing l with
  | zero => rfl
  | succ k ih =>
    show locIter c (k + 1) (_loc_advance_slot c l) = _
    rw [ih]
    rfl

theorem locIter_inRange {c : Config} {l : Loc} (h : inRange c l) (k : Nat) :
    inRange c (locIter c k l) := by
  induction k generalizing l with
  | zero => exact h
  | succ k ih => exact ih (advance_inRange h)

/-! ## Characterization of the fetch loop -/

theorem fetchLoop_none (c : Config) (f : Flash) (wloc : Loc) (hw : inRange c wloc) :
    ∀ (n fuel : Nat) (loc : Loc) (buf : Int → Nat), inRange c loc →
      (ringDist c loc wloc).toNat = n → n < fuel →
      (∀ k : Nat, (k : Int) < ringDist c loc wloc →
        f.slotStatus (locIter c k loc).sector (locIter c k loc).slot ≠ SLOT_VALID) →
      fetchLoop c f wloc fuel loc buf = (wloc, buf, -1) := by
  intro n
  induction n with
  | zero =>
    intro fuel loc buf hl hd hf _
    have h0 : ringDist c loc wloc = 0 := by
      have := ringDist_nonneg hl hw
      omega
    have heq : loc = wloc := (ringDist_eq_zero_iff hl hw).1 h0
    subst heq
    cases fuel with
    | zero => omega
    | succ m => simp [fetchLoop]
  | succ n ih =>
    intro fuel loc buf hl hd hf hks
    have hdp : 0 < ringDist c loc wloc := by
      have := ringDist_nonneg hl hw
      omega
    have hne : loc ≠ wloc := by
      intro heq
      have := (ringDist_eq_zero_iff hl hw).2 heq
      omega
    have hnv : f.slotStatus loc.sector loc.slot ≠ SLOT_VALID := by
      have := hks 0 (by push_cast; omega)
      simpa [locIter] using this
    cases fuel with
    | zero => omega
    | succ m =>
      simp only [fetchLoop]
      rw [if_neg hne, if_neg hnv]
      have hadv := ringDist_advance hl hw hne
      apply ih m (_loc_advance_slot c loc) buf (advance_inRange hl) (by omega) (by omega)
      intro k hk
      have := hks (k + 1) (by omega)
      simpa [locIter] using this

theorem fetchLoop_found (c : Config) (f : Flash) (wloc : Loc) (hw : inRange c wloc) :
    ∀ (k0 fuel : Nat) (loc : Loc) (buf : Int → Nat), inRange c loc →
      (k0 : Int) < ringDist c loc wloc → (ringDist c loc wloc).toNat < fuel →
      f.slotStatus (locIter c k0 loc).sector (locIter c k0 loc).slot = SLOT_VALID →
      (∀ j : Nat, j < k0 →
        f.slotStatus (locIter c j loc).sector (locIter c j loc).slot ≠ SLOT_VALID) →
      fetchLoop c f wloc fuel loc buf =
        (_loc_advance_slot c (locIter c k0 loc),
         readPayloadInto c f (locIter c k0 loc) buf, 0) := by
  intro k0
  induction k0 with
  | zero =>
    intro fuel loc buf hl hk hf hv _
    have hdp : 0 < ringDist c loc wloc := by push_cast at hk; omega
    have hne : loc ≠ wloc := by
      intro heq
      have := (ringDist_eq_zero_iff hl hw).2 heq
      omega
    cases fuel with
    | zero =>
      have := ringDist_nonneg hl hw
      omega
    | succ m =>
      simp only [fetchLoop]
      rw [if_neg hne, if_pos (by simpa [locIter] using hv)]
      simp [locIter]
  | succ k0 ih =>
    intro fuel loc buf hl hk hf hv hjs
    have hdp : 0 < ringDist c loc wloc := by push_cast at hk; omega
    have hne : loc ≠ wloc := by
      intro heq
      have := (ringDist_eq_zero_iff hl hw).2 heq
      omega
    have hnv : f.slotStatus loc.sector loc.slot ≠ SLOT_VALID := by
      have := hjs 0 (by omega)
      simpa [locIter] using this
    cases fuel with
    | zero =>
      have := ringDist_nonneg hl hw
      omega
    | succ m =>
      simp only [fetchLoop]
      rw [if_neg hne, if_neg hnv]
      have hadv := ringDist_advance hl hw hne
      have hres := ih m (_loc_advance_slot c loc) buf (advance_inRange hl)
        (by omega) (by omega)
        (by simpa [locIter] using hv)
        (fun j hj => by
          have := hjs (j + 1) (by omega)
          simpa [locIter] using this)
      simpa [locIter] using hres

/-! ## Characterization of the read loop of scan -/

theorem scanReadLoop_none (c : Config) (f : Flash) (wloc : Loc) (hw : inRange c wloc) :
    ∀ (n fuel : Nat) (loc : Loc), inRange c loc →
      (ringDist c loc wloc).toNat = n → n < fuel →
      (∀ k : Nat, (k : Int) < ringDist c loc wloc →
        f.slotStatus (locIter c k loc).sector (locIter c k loc).slot ≠ SLOT_VALID) →
      scanReadLoop c f wloc fuel loc = wloc := by
  intro n
  induction n with
  | zero =>
    intro fuel loc hl hd hf _
    have h0 : ringDist c loc wloc = 0 := by
      have := ringDist_nonneg hl hw
      omega
    have heq : loc = wloc := (ringDist_eq_zero_iff hl hw).1 h0
    subst heq
    cases fuel with
    | zero => omega
    | succ m => simp [scanReadLoop]
  | succ n ih =>
    intro fuel loc hl hd hf hks
    have hdp : 0 < ringDist c loc wloc := by
      have := ringDist_nonneg hl hw
      omega
    have hne : loc ≠ wloc := by
      intro heq
      have := (ringDist_eq_zero_iff hl hw).2 heq
      omega
    have hnv : f.slotStatus loc.sector loc.slot ≠ SLOT_VALID := by
      have := hks 0 (by push_cast; omega)
      simpa [locIter] using this
    cases fuel with
    | zero => omega
    | succ m =>
      simp only [scanReadLoop]
      rw [if_neg hne, if_neg hnv]
      have hadv := ringDist_advance hl hw hne
      apply ih m (_loc_advance_slot c loc) (advance_inRange hl) (by omega) (by omega)
      intro k hk
      have := hks (k + 1) (by omega)
      simpa [locIter] using this

theorem scanReadLoop_found (c : Config) (f : Flash) (wloc : Loc) (hw : inRange c wloc) :
    ∀ (k0 fuel : Nat) (loc : Loc), inRange c loc →
      (k0 : Int) < ringDist c loc wloc → (ringDist c loc wloc).toNat < fuel →
      f.slotStatus (locIter c k0 loc).sector (locIter c k0 loc).slot = SLOT_VALID →
      (∀ j : Nat, j < k0 →
        f.slotStatus (locIter c j loc).sector (locIter c j loc).slot ≠ SLOT_VALID) →
      scanReadLoop c f wloc fuel loc = locIter c k0 loc := by
  intro k0
  induction k0 with
  | zero =>
    intro fuel loc hl hk hf hv _
    have hdp : 0 < ringDist c loc wloc := by push_cast at hk; omega
    have hne : loc ≠ wloc := by
      intro heq
      have := (ringDist_eq_zero_iff hl hw).2 heq
      omega
    cases fuel with
    | zero =>
      have := ringDist_nonneg hl hw
      omega
    | succ m =>
      simp only [scanReadLoop]
      rw [if_neg hne, if_pos (by simpa [locIter] using hv)]
      simp [locIter]
  | succ k0 ih =>
    intro fuel loc hl hk hf hv hjs
    have hdp : 0 < ringDist c loc wloc := by push_cast at hk; omega
    have hne : loc ≠ wloc := by
      intro heq
      have := (ringDist_eq_zero_iff hl hw).2 heq
      omega
    have hnv : f.slotStatus loc.sector loc.slot ≠ SLOT_VALID := by
      have := hjs 0 (by omega)
      simpa [locIter] using this
    cases fuel with
    | zero =>
      have := ringDist_nonneg hl hw
      omega
    | succ m =>
      simp only [scanReadLoop]
      rw [if_neg hne, if_neg hnv]
      have hadv := ringDist_advance hl hw hne
      have hres := ih m (_loc_advance_slot c loc) (advance_inRange hl)
        (by omega) (by omega)
        (by simpa [locIter] using hv)
        (fun j hj => by
          have := hjs (j + 1) (by omega)
          simpa [locIter] using this)
      simpa [locIter] using hres

/-! ## Characterization of the write-head loop of scan -/

theorem scanWriteLoop_found (c : Config) (f : Flash) (ws : Int) :
    ∀ (n fuel : Nat) (j j0 : Int), 0 ≤ j → j ≤ j0 → j0 < c.slotsPerSector →
      (j0 - j).toNat = n → n < fuel →
      f.slotStatus ws j0 = SLOT_ERASED →
      (∀ i, j ≤ i → i < j0 → f.slotStatus ws i ≠ SLOT_ERASED) →
      scanWriteLoop c f ws fuel ⟨ws, j⟩ = ⟨ws, j0⟩ := by
  intro n
  induction n with
  | zero =>
    intro fuel j j0 h0 h1 h2 hn hf hst _
    have hj : j = j0 := by omega
    subst hj
    cases fuel with
    | zero => omega
    | succ m =>
      simp only [scanWriteLoop]
      rw [if_pos trivial]
      simp [hst]
  | succ n ih =>
    intro fuel j j0 h0 h1 h2 hn hf hst hskip
    have hlt : j < j0 := by omega
    have hne : f.slotStatus ws j ≠ SLOT_ERASED := hskip j le_rfl hlt
    cases fuel with
    | zero => omega
    | succ m =>
      simp only [scanWriteLoop]
      rw [if_pos trivial]
      simp only [hne, if_neg, ite_false]
      have hadv : _loc_advance_slot c ⟨ws, j⟩ = (⟨ws, j + 1⟩ : Loc) := by
        rw [advance_slot_mk, if_neg (by omega)]
      rw [hadv]
      exact ih m (j + 1) j0 (by omega) (by omega) h2 (by omega) (by omega) hst
        (fun i hi1 hi2 => hskip i (by omega) hi2)

theorem scanWriteLoop_none (c : Config) (f : Flash) (ws : Int)
    (hws0 : 0 ≤ ws) (hws1 : ws < c.sectorCount) (hcount : 2 ≤ c.sectorCount) :
    ∀ (n fuel : Nat) (j : Int), 0 ≤ j → j < c.slotsPerSector →
      (c.slotsPerSector - 1 - j).toNat = n → n + 1 < fuel →
      (∀ i, j ≤ i → i < c.slotsPerSector → f.slotStatus ws i ≠ SLOT_ERASED) →
      scanWriteLoop c f ws fuel ⟨ws, j⟩ =
        (if ws + 1 < c.sectorCount then (⟨ws + 1, 0⟩ : Loc) else ⟨0, 0⟩) := by
  intro n
  induction n with
  | zero =>
    intro fuel j h0 h1 hn hf hskip
    have hj : j = c.slotsPerSector - 1 := by omega
    have hne : f.slotStatus ws j ≠ SLOT_ERASED := hskip j le_rfl h1
    cases fuel with
    | zero => omega
    | succ m =>
      simp only [scanWriteLoop]
      rw [if_pos trivial]
      simp only [hne, ite_false]
      have hadv : _loc_advance_slot c ⟨ws, j⟩ =
          (if ws + 1 < c.sectorCount then (⟨ws + 1, 0⟩ : Loc) else ⟨0, 0⟩) := by
        rw [advance_slot_mk, if_pos (by omega)]
        split_ifs <;> first | rfl | omega
      rw [hadv]
      cases m with
      | zero => omega
      | succ m2 =>
        split_ifs with hb
        · simp only [scanWriteLoop]
          rw [if_neg (by omega)]
        · simp only [scanWriteLoop]
          rw [if_neg (by omega)]
  | succ n ih =>
    intro fuel j h0 h1 hn hf hskip
    have hne : f.slotStatus ws j ≠ SLOT_ERASED := hskip j le_rfl h1
    cases fuel with
    | zero => omega
    | succ m =>
      simp only [scanWriteLoop]
      rw [if_pos trivial]
      simp only [hne, ite_false]
      have hadv : _loc_advance_slot c ⟨ws, j⟩ = (⟨ws, j + 1⟩ : Loc) := by
        rw [advance_slot_mk, if_neg (by omega)]
      rw [hadv]
      exact ih m (j + 1) (by omega) (by omega) (by omega) (by omega)
        (fun i hi1 hi2 => hskip i (by omega) hi2)

/-! ## Bound on the count loop -/

theorem countLoop_le (c : Config) (f : Flash) (wloc : Loc) (hw : inRange c wloc) :
    ∀ (n fuel : Nat) (loc : Loc) (acc : Int), inRange c loc →
      (ringDist c loc wloc).toNat = n → n < fuel →
      countLoop c f wloc fuel loc acc ≤ acc + ringDist c loc wloc := by
  intro n
  induction n with
  | zero =>
    intro fuel loc acc hl hd hf
    have h0 : ringDist c loc wloc = 0 := by
      have := ringDist_nonneg hl hw
      omega
    have heq : loc = wloc := (ringDist_eq_zero_iff hl hw).1 h0
    subst heq
    cases fuel with
    | zero => omega
    | succ m => simp [countLoop, h0]
  | succ n ih =>
    intro fuel loc acc hl hd hf
    have hdp : 0 < ringDist c loc wloc := by
      have := ringDist_nonneg hl hw
      omega
    have hne : loc ≠ wloc := by
      intro heq
      have := (ringDist_eq_zero_iff hl hw).2 heq
      omega
    cases fuel with
    | zero => omega
    | succ m =>
      simp only [countLoop]
      rw [if_neg hne]
      have hadv := ringDist_advance hl hw hne
      have hrec := ih m (_loc_advance_slot c loc)
        (if f.slotStatus loc.sector loc.slot = SLOT_VALID then acc + 1 else acc)
        (advance_inRange hl) (by omega) (by omega)
      split_ifs at hrec ⊢ <;> omega

/-! ## Preservation lemmas for the discard loop -/

theorem discardLoop_sectorStatus (c : Config) :
    ∀ (fuel : Nat) (f : Flash) (loc target : Loc) (k : Int),
      ((discardLoop c fuel f loc target).1).sectorStatus k = f.sectorStatus k := by
  intro fuel
  induction fuel with
  | zero => intro f loc target k; rfl
  | succ m ih =>
    intro f loc target k
    simp only [discardLoop]
    split_ifs with h
    · rfl
    · rw [ih]
      rfl

theorem discardLoop_loc_inRange (c : Config) :
    ∀ (fuel : Nat) (f : Flash) (loc target : Loc), inRange c loc →
      inRange c (discardLoop c fuel f loc target).2 := by
  intro fuel
  induction fuel with
  | zero => intro f loc target h; exact h
  | succ m ih =>
    intro f loc target h
    simp only [discardLoop]
    split_ifs with heq
    · exact h
    · exact ih _ _ _ (advance_inRange h)

/-! ## Loops keep their location in range -/

theorem scanWriteLoop_inRange (c : Config) (f : Flash) (ws : Int) :
    ∀ (fuel : Nat) (loc : Loc), inRange c loc →
      inRange c (scanWriteLoop c f ws fuel loc) := by
  intro fuel
  induction fuel with
  | zero => intro loc h; exact h
  | succ m ih =>
    intro loc h
    simp only [scanWriteLoop]
    split_ifs with h1 h2
    · exact h
    · exact ih _ (advance_inRange h)
    · exact h

theorem scanReadLoop_inRange (c : Config) (f : Flash) (wloc : Loc) :
    ∀ (fuel : Nat) (loc : Loc), inRange c loc →
      inRange c (scanReadLoop c f wloc fuel loc) := by
  intro fuel
  induction fuel with
  | zero => intro loc h; exact h
  | succ m ih =>
    intro loc h
    simp only [scanReadLoop]
    split_ifs with h1 h2
    · exact h
    · exact h
    · exact ih _ (advance_inRange h)

theorem fetchLoop_loc_inRange (c : Config) (f : Flash) (wloc : Loc) :
    ∀ (fuel : Nat) (loc : Loc) (buf : Int → Nat), inRange c loc →
      inRange c (fetchLoop c f wloc fuel loc buf).1 := by
  intro fuel
  induction fuel with
  | zero => intro loc buf h; exact h
  | succ m ih =>
    intro loc buf h
    simp only [fetchLoop]
    split_ifs with h1 h2
    · exact h
    · exact advance_inRange h
    · exact ih _ _ (advance_inRange h)

/-! ## The scan pass, one sector at a time -/

theorem sectorRepairedStatus_congr (f g : Flash) (k : Int)
    (h1 : f.sectorStatus k = g.sectorStatus k) :
    sectorRepairedStatus f k = sectorRepairedStatus g k := by
  unfold sectorRepairedStatus
  rw [h1]

theorem sectorBad_congr (c : Config) (f g : Flash) (k : Int)
    (h1 : f.sectorStatus k = g.sectorStatus k)
    (h2 : f.sectorVersion k = g.sectorVersion k) :
    sectorBad c f k ↔ sectorBad c g k := by
  unfold sectorBad sectorRepairedStatus
  rw [h1, h2]

theorem scanStep_eq (c : Config) (st : ScanSt) (k : Int) :
    scanStep c st k =
      if sectorBad c st.flash k then
        Sum.inl (if st.flash.sectorStatus k = SECTOR_FORMATTING then st.flash
          else if st.flash.sectorStatus k = SECTOR_ERASING ∨
              st.flash.sectorStatus k = SECTOR_ERASED then
            _sector_free c st.flash k
          else st.flash)
      else
        Sum.inr
          { flash :=
              if st.flash.sectorStatus k = SECTOR_ERASING ∨
                  st.flash.sectorStatus k = SECTOR_ERASED then
                _sector_free c st.flash k
              else st.flash
            prev := sectorRepairedStatus st.flash k
            readSector :=
              if sectorRepairedStatus st.flash k = SECTOR_IN_USE ∧ st.prev = SECTOR_FREE
              then k else st.readSector
            writeSector :=
              if sectorRepairedStatus st.flash k = SECTOR_FREE ∧ st.prev = SECTOR_IN_USE
              then k - 1 else st.writeSector
            freeSeen := st.freeSeen || decide (sectorRepairedStatus st.flash k = SECTOR_FREE)
            usedSeen :=
              st.usedSeen || decide (sectorRepairedStatus st.flash k = SECTOR_IN_USE) } := by
  unfold scanStep sectorBad sectorRepairedStatus
  split_ifs <;>
    simp_all [SECTOR_FORMATTING, SECTOR_FREE, SECTOR_IN_USE, SECTOR_ERASING, SECTOR_ERASED] <;>
    try tauto
  all_goals (split_ifs <;> simp_all)

theorem intsFrom_succ (i : Int) (n : Nat) : intsFrom i (n + 1) = i :: intsFrom (i + 1) n := rfl

theorem scanStep_isLeft_of_bad (c : Config) (st : ScanSt) (k : Int)
    (hb : sectorBad c st.flash k) : ∃ f', scanStep c st k = Sum.inl f' := by
  rw [scanStep_eq, if_pos hb]
  exact ⟨_, rfl⟩

theorem scanStep_inr_of_not_bad (c : Config) (st : ScanSt) (k : Int)
    (hb : ¬ sectorBad c st.flash k) : ∃ st', scanStep c st k = Sum.inr st' := by
  rw [scanStep_eq, if_neg hb]
  exact ⟨_, rfl⟩

theorem scanStep_fields (c : Config) (st : ScanSt) (k : Int) (st' : ScanSt)
    (h : scanStep c st k = Sum.inr st') :
    st'.freeSeen = (st.freeSeen || decide (sectorRepairedStatus st.flash k = SECTOR_FREE)) ∧
    st'.usedSeen = (st.usedSeen || decide (sectorRepairedStatus st.flash k = SECTOR_IN_USE)) ∧
    st'.prev = sectorRepairedStatus st.flash k ∧
    st'.readSector =
      (if sectorRepairedStatus st.flash k = SECTOR_IN_USE ∧ st.prev = SECTOR_FREE then k
       else st.readSector) ∧
    st'.writeSector =
      (if sectorRepairedStatus st.flash k = SECTOR_FREE ∧ st.prev = SECTOR_IN_USE then k - 1
       else st.writeSector) ∧
    ¬ sectorBad c st.flash k := by
  rw [scanStep_eq] at h
  by_cases hbad : sectorBad c st.flash k
  · rw [if_pos hbad] at h
    simp at h
  · rw [if_neg hbad, Sum.inr.injEq] at h
    subst h
    exact ⟨rfl, rfl, rfl, rfl, rfl, hbad⟩

theorem scanStep_flash_eq (c : Config) (st : ScanSt) (k : Int) (st' : ScanSt)
    (h : scanStep c st k = Sum.inr st') :
    st'.flash =
      (if st.flash.sectorStatus k = SECTOR_ERASING ∨ st.flash.sectorStatus k = SECTOR_ERASED
       then _sector_free c st.flash k else st.flash) := by
  rw [scanStep_eq] at h
  by_cases hbad : sectorBad c st.flash k
  · rw [if_pos hbad] at h
    simp at h
  · rw [if_neg hbad, Sum.inr.injEq] at h
    subst h
    rfl

theorem scanStep_flash_header_other (c : Config) (st : ScanSt) (k : Int) (st' : ScanSt)
    (h : scanStep c st k = Sum.inr st') (k' : Int) (hk : k' ≠ k) :
    st'.flash.sectorStatus k' = st.flash.sectorStatus k' ∧
    st'.flash.sectorVersion k' = st.flash.sectorVersion k' := by
  rw [scanStep_flash_eq c st k st' h]
  split_ifs with hrep
  · have := _sector_free_other c st.flash k k' hk
    exact ⟨this.1, this.2.1⟩
  · exact ⟨rfl, rfl⟩

theorem scanStep_preserves_free (c : Config) (st : ScanSt) (k : Int) (st' : ScanSt)
    (h : scanStep c st k = Sum.inr st') (k0 : Int)
    (hf : st.flash.sectorStatus k0 = SECTOR_FREE) :
    st'.flash.sectorStatus k0 = SECTOR_FREE := by
  rw [scanStep_flash_eq c st k st' h]
  split_ifs with hrep
  · by_cases hk : k0 = k
    · subst hk
      exact _sector_free_status_self c st.flash k0
    · rw [(_sector_free_other c st.flash k k0 hk).1]
      exact hf
  · exact hf

theorem scanStep_free_witness (c : Config) (st : ScanSt) (k : Int) (st' : ScanSt)
    (h : scanStep c st k = Sum.inr st')
    (hfs : sectorRepairedStatus st.flash k = SECTOR_FREE) :
    st'.flash.sectorStatus k = SECTOR_FREE := by
  rw [scanStep_flash_eq c st k st' h]
  unfold sectorRepairedStatus at hfs
  split_ifs with hrep
  · exact _sector_free_status_self c st.flash k
  · rw [if_neg hrep] at hfs
    exact hfs

theorem scanPass1_char (c : Config) (f : Flash) :
    ∀ (n : Nat) (i : Int) (st : ScanSt),
      (∀ k, i ≤ k → k < i + (n : Int) →
        st.flash.sectorStatus k = f.sectorStatus k ∧
        st.flash.sectorVersion k = f.sectorVersion k) →
      ((∃ k, i ≤ k ∧ k < i + (n : Int) ∧ sectorBad c f k) →
        ∃ f', scanPass1 c (intsFrom i n) st = Sum.inl f') ∧
      ((∀ k, i ≤ k → k < i + (n : Int) → ¬ sectorBad c f k) →
        ∃ st', scanPass1 c (intsFrom i n) st = Sum.inr st' ∧
          (st'.freeSeen = true ↔ (st.freeSeen = true ∨
            ∃ k, i ≤ k ∧ k < i + (n : Int) ∧ sectorRepairedStatus f k = SECTOR_FREE))) := by
  intro n
  induction n with
  | zero =>
    intro i st hagree
    constructor
    · rintro ⟨k, hk1, hk2, _⟩
      exfalso
      push_cast at hk2
      omega
    · intro _
      refine ⟨st, rfl, ?_⟩
      constructor
      · intro h
        exact Or.inl h
      · rintro (h | ⟨k, hk1, hk2, _⟩)
        · exact h
        · exfalso
          push_cast at hk2
          omega
  | succ n ih =>
    intro i st hagree
    have hag_i := hagree i le_rfl (by push_cast; omega)
    by_cases hbad : sectorBad c f i
    · have hb' : sectorBad c st.flash i :=
        (sectorBad_congr c st.flash f i hag_i.1 hag_i.2).2 hbad
      obtain ⟨f', hf'⟩ := scanStep_isLeft_of_bad c st i hb'
      constructor
      · intro _
        refine ⟨f', ?_⟩
        simp [intsFrom_succ, scanPass1, hf']
      · intro hall
        exact absurd hbad (hall i le_rfl (by push_cast; omega))
    · have hb' : ¬ sectorBad c st.flash i := fun h =>
        hbad ((sectorBad_congr c st.flash f i hag_i.1 hag_i.2).1 h)
      obtain ⟨st1, hst1⟩ := scanStep_inr_of_not_bad c st i hb'
      obtain ⟨hfree1, _, _, _, _, _⟩ := scanStep_fields c st i st1 hst1
      have hagree1 : ∀ k, i + 1 ≤ k → k < i + 1 + (n : Int) →
          st1.flash.sectorStatus k = f.sectorStatus k ∧
          st1.flash.sectorVersion k = f.sectorVersion k := by
        intro k hk1 hk2
        have hother := scanStep_flash_header_other c st i st1 hst1 k (by omega)
        have hg := hagree k (by omega) (by push_cast; omega)
        exact ⟨hother.1.trans hg.1, hother.2.trans hg.2⟩
      have IH := ih (i + 1) st1 hagree1
      have hpass : scanPass1 c (intsFrom i (n + 1)) st = scanPass1 c (intsFrom (i + 1) n) st1 := by
        simp [intsFrom_succ, scanPass1, hst1]
      constructor
      · rintro ⟨k, hk1, hk2, hkbad⟩
        have hk_ne : k ≠ i := fun h => hbad (h ▸ hkbad)
        obtain ⟨f', hf'⟩ := IH.1 ⟨k, by omega, by push_cast at hk2 ⊢; omega, hkbad⟩
        exact ⟨f', by rw [hpass]; exact hf'⟩
      · intro hall
        obtain ⟨st', hst', hiff⟩ :=
          IH.2 (fun k hk1 hk2 => hall k (by omega) (by push_cast at hk2 ⊢; omega))
        refine ⟨st', by rw [hpass]; exact hst', ?_⟩
        rw [hiff, hfree1]
        constructor
        · rintro (h | ⟨k, hk1, hk2, hkfree⟩)
          · rcases (by simpa using h :
                st.freeSeen = true ∨ sectorRepairedStatus st.flash i = SECTOR_FREE) with h2 | h2
            · exact Or.inl h2
            · right
              refine ⟨i, le_rfl, by push_cast; omega, ?_⟩
              rwa [sectorRepairedStatus_congr st.flash f i hag_i.1] at h2
          · right
            exact ⟨k, by omega, by push_cast at hk2 ⊢; omega, hkfree⟩
        · rintro (h | ⟨k, hk1, hk2, hkfree⟩)
          · left
            simp [h]
          · by_cases hki : k = i
            · left
              subst hki
              have hloc : sectorRepairedStatus st.flash k = SECTOR_FREE := by
                rwa [sectorRepairedStatus_congr st.flash f k hag_i.1]
              simp [hloc]
            · right
              exact ⟨k, by omega, by push_cast at hk2 ⊢; omega, hkfree⟩

theorem scanPass1_free_exists (c : Config) :
    ∀ (n : Nat) (i : Int) (st st' : ScanSt),
      0 ≤ i → i + (n : Int) ≤ c.sectorCount →
      scanPass1 c (intsFrom i n) st = Sum.inr st' →
      (st.freeSeen = true →
        ∃ k, 0 ≤ k ∧ k < c.sectorCount ∧ st.flash.sectorStatus k = SECTOR_FREE) →
      st'.freeSeen = true →
      ∃ k, 0 ≤ k ∧ k < c.sectorCount ∧ st'.flash.sectorStatus k = SECTOR_FREE := by
  intro n
  induction n with
  | zero =>
    intro i st st' _ _ hpass hinv hfree
    have : st = st' := by
      simpa [intsFrom, scanPass1, Sum.inr.injEq] using hpass
    subst this
    exact hinv hfree
  | succ n ih =>
    intro i st st' hi0 hin hpass hinv hfree
    rw [intsFrom_succ] at hpass
    simp only [scanPass1] at hpass
    cases hstep : scanStep c st i with
    | inl f' => rw [hstep] at hpass; simp at hpass
    | inr st1 =>
      rw [hstep] at hpass
      refine ih (i + 1) st1 st' (by omega) (by push_cast at hin ⊢; omega) hpass ?_ hfree
      intro h1
      obtain ⟨hfree1, _, _, _, _, _⟩ := scanStep_fields c st i st1 hstep
      rw [hfree1] at h1
      rcases (by simpa using h1 :
          st.freeSeen = true ∨ sectorRepairedStatus st.flash i = SECTOR_FREE) with h2 | h2
      · obtain ⟨k, hk0, hk1, hkf⟩ := hinv h2
        exact ⟨k, hk0, hk1, scanStep_preserves_free c st i st1 hstep k hkf⟩
      · refine ⟨i, hi0, by push_cast at hin; omega, ?_⟩
        exact scanStep_free_witness c st i st1 hstep h2

theorem scanPass1_bounds (c : Config) :
    ∀ (n : Nat) (i : Int) (st st' : ScanSt),
      0 ≤ i → i + (n : Int) ≤ c.sectorCount →
      (0 ≤ st.readSector ∧ st.readSector < c.sectorCount ∧
       0 ≤ st.writeSector ∧ st.writeSector < c.sectorCount) →
      (st.prev = SECTOR_IN_USE → 1 ≤ i) →
      scanPass1 c (intsFrom i n) st = Sum.inr st' →
      0 ≤ st'.readSector ∧ st'.readSector < c.sectorCount ∧
      0 ≤ st'.writeSector ∧ st'.writeSector < c.sectorCount := by
  intro n
  induction n with
  | zero =>
    intro i st st' _ _ hinv _ hpass
    have : st = st' := by
      simpa [intsFrom, scanPass1, Sum.inr.injEq] using hpass
    subst this
    exact hinv
  | succ n ih =>
    intro i st st' hi0 hin hinv hprev hpass
    rw [intsFrom_succ] at hpass
    simp only [scanPass1] at hpass
    cases hstep : scanStep c st i with
    | inl f' => rw [hstep] at hpass; simp at hpass
    | inr st1 =>
      rw [hstep] at hpass
      obtain ⟨_, _, hprev1, hrs1, hws1, _⟩ := scanStep_fields c st i st1 hstep
      refine ih (i + 1) st1 st' (by omega) (by push_cast at hin ⊢; omega) ?_ ?_ hpass
      · push_cast at hin
        constructor
        · rw [hrs1]; split_ifs <;> omega
        constructor
        · rw [hrs1]; split_ifs <;> omega
        constructor
        · rw [hws1]
          split_ifs with hcond
          · have := hprev hcond.2
            omega
          · omega
        · rw [hws1]; split_ifs <;> omega
      · intro _
        omega

theorem scanPass1_all_free (c : Config) :
    ∀ (n : Nat) (i : Int) (st : ScanSt),
      (∀ k, i ≤ k → k < i + (n : Int) →
        st.flash.sectorStatus k = SECTOR_FREE ∧ st.flash.sectorVersion k = c.version) →
      st.prev = SECTOR_FREE →
      ∃ st', scanPass1 c (intsFrom i n) st = Sum.inr st' ∧
        st'.flash = st.flash ∧ st'.readSector = st.readSector ∧
        st'.writeSector = st.writeSector ∧ st'.usedSeen = st.usedSeen ∧
        st'.prev = SECTOR_FREE ∧
        st'.freeSeen = (st.freeSeen || decide (0 < n)) := by
  intro n
  induction n with
  | zero =>
    intro i st _ hprev
    exact ⟨st, rfl, rfl, rfl, rfl, rfl, hprev, by simp⟩
  | succ n ih =>
    intro i st hall hprev
    have hsi := (hall i le_rfl (by push_cast; omega)).1
    have hvi := (hall i le_rfl (by push_cast; omega)).2
    have hnotbad : ¬ sectorBad c st.flash i := by
      simp [sectorBad, sectorRepairedStatus, hsi, hvi, SECTOR_FREE, SECTOR_FORMATTING,
        SECTOR_ERASING, SECTOR_ERASED, SECTOR_IN_USE]
    have hstep : scanStep c st i = Sum.inr
        { flash := st.flash, prev := SECTOR_FREE, readSector := st.readSector,
          writeSector := st.writeSector, freeSeen := true, usedSeen := st.usedSeen } := by
      rw [scanStep_eq, if_neg hnotbad]
      simp [sectorRepairedStatus, hsi, hprev, SECTOR_FREE, SECTOR_ERASING, SECTOR_ERASED,
        SECTOR_IN_USE]
    obtain ⟨st', hpass, hf, hrs, hws, hus, hpv, hfs⟩ := ih (i + 1)
      { flash := st.flash, prev := SECTOR_FREE, readSector := st.readSector,
        writeSector := st.writeSector, freeSeen := true, usedSeen := st.usedSeen }
      (fun k hk1 hk2 => hall k (by omega) (by push_cast at hk2 ⊢; omega)) rfl
    refine ⟨st', ?_, hf, hrs, hws, hus, hpv, ?_⟩
    · rw [intsFrom_succ]
      simp only [scanPass1]
      rw [hstep]
      exact hpass
    · rw [hfs]
      simp

/-! ## The _sector_free folds of format -/

theorem sector_free_fold_other (c : Config) :
    ∀ (n : Nat) (i : Int) (f : Flash) (k : Int), (k < i ∨ i + (n : Int) ≤ k) →
      ((intsFrom i n).foldl (fun acc s => _sector_free c acc s) f).sectorStatus k =
        f.sectorStatus k ∧
      ((intsFrom i n).foldl (fun acc s => _sector_free c acc s) f).sectorVersion k =
        f.sectorVersion k ∧
      (∀ j, ((intsFrom i n).foldl (fun acc s => _sector_free c acc s) f).slotStatus k j =
        f.slotStatus k j) := by
  intro n
  induction n with
  | zero => intro i f k _; exact ⟨rfl, rfl, fun j => rfl⟩
  | succ n ih =>
    intro i f k hk
    rw [intsFrom_succ]
    simp only [List.foldl_cons]
    have hkne : k ≠ i := by push_cast at hk; omega
    obtain ⟨h1, h2, h3, _⟩ := _sector_free_other c f i k hkne
    obtain ⟨g1, g2, g3⟩ := ih (i + 1) (_sector_free c f i) k (by push_cast at hk ⊢; omega)
    exact ⟨g1.trans h1, g2.trans h2, fun j => (g3 j).trans (h3 j)⟩

theorem sector_free_fold_self (c : Config) :
    ∀ (n : Nat) (i : Int) (f : Flash) (k : Int), i ≤ k → k < i + (n : Int) →
      ((intsFrom i n).foldl (fun acc s => _sector_free c acc s) f).sectorStatus k =
        SECTOR_FREE ∧
      (c.version < 2 ^ 32 →
        ((intsFrom i n).foldl (fun acc s => _sector_free c acc s) f).sectorVersion k =
          c.version) ∧
      (∀ j, ((intsFrom i n).foldl (fun acc s => _sector_free c acc s) f).slotStatus k j =
        SLOT_ERASED) := by
  intro n
  induction n with
  | zero =>
    intro i f k h1 h2
    exfalso
    push_cast at h2
    omega
  | succ n ih =>
    intro i f k h1 h2
    rw [intsFrom_succ]
    simp only [List.foldl_cons]
    by_cases hk : k = i
    · subst hk
      obtain ⟨g1, g2, g3⟩ := sector_free_fold_other c n (k + 1) (_sector_free c f k) k
        (by omega)
      refine ⟨?_, ?_, ?_⟩
      · rw [g1]
        exact _sector_free_status_self c f k
      · intro hv
        rw [g2]
        exact _sector_free_version_self c f k hv
      · intro j
        rw [g3 j]
        exact _sector_free_slotStatus_self c f k j
    · exact ih (i + 1) (_sector_free c f i) k (by omega) (by push_cast at h2 ⊢; omega)

/-! ## Top-level facts about ringfs_scan and ringfs_format -/

theorem ringfs_scan_code_eq (c : Config) (f : Flash) (fs : RingFS) :
    (ringfs_scan c f fs).code = (if scanOk c f then 0 else -1) := by
  unfold ringfs_scan
  split_ifs <;> rfl

theorem ringfs_scan_of_ok (c : Config) (f : Flash) (fs : RingFS) (h : scanOk c f = true) :
    ringfs_scan c f fs =
      { flash := scanFlash c f
        fs := { fs with write := scanWriteLoc c f, read := scanReadLoc c f,
                        cursor := scanReadLoc c f }
        code := 0 } := by
  unfold ringfs_scan
  rw [if_pos h]

theorem scan_fail_iff (c : Config) (f : Flash) (fs : RingFS) :
    (ringfs_scan c f fs).code = -1 ↔
      ((∃ k, 0 ≤ k ∧ k < c.sectorCount ∧ sectorBad c f k) ∨
       ((∀ k, 0 ≤ k → k < c.sectorCount → ¬ sectorBad c f k) ∧
        ¬ ∃ k, 0 ≤ k ∧ k < c.sectorCount ∧ sectorRepairedStatus f k = SECTOR_FREE)) := by
  have hchar := scanPass1_char c f c.sectorCount.toNat 0 (initScanSt c f)
    (fun k _ _ => ⟨rfl, rfl⟩)
  rcases Classical.em (∃ k, 0 ≤ k ∧ k < c.sectorCount ∧ sectorBad c f k) with hex | hnex
  · obtain ⟨k, hk0, hk1, hkb⟩ := hex
    obtain ⟨f', hf'⟩ := hchar.1 ⟨k, hk0, by omega, hkb⟩
    have hres : scanPass1Result c f = Sum.inl f' := hf'
    refine iff_of_true ?_ (Or.inl ⟨k, hk0, hk1, hkb⟩)
    rw [ringfs_scan_code_eq]
    simp [scanOk, hres]
  · have hall : ∀ k, 0 ≤ k → k < 0 + (c.sectorCount.toNat : Int) → ¬ sectorBad c f k :=
      fun k hk1 hk2 hb => hnex ⟨k, hk1, by omega, hb⟩
    obtain ⟨st', hst', hiff⟩ := hchar.2 hall
    have hres : scanPass1Result c f = Sum.inr st' := hst'
    have hok : scanOk c f = st'.freeSeen := by simp [scanOk, hres]
    rw [ringfs_scan_code_eq, hok]
    cases hfs : st'.freeSeen with
    | false =>
      refine iff_of_true (by simp) (Or.inr ⟨fun k hk1 hk2 => hnex ∘ fun hb => ⟨k, hk1, hk2, hb⟩,
        ?_⟩)
      rintro ⟨k, hk0, hk1, hkfree⟩
      have : st'.freeSeen = true := by
        rw [hiff]
        exact Or.inr ⟨k, hk0, by omega, hkfree⟩
      rw [hfs] at this
      exact Bool.false_ne_true this
    | true =>
      refine iff_of_false (by simp) ?_
      rintro (hex2 | ⟨_, hnofree⟩)
      · exact hnex hex2
      · rcases hiff.1 hfs with h2 | ⟨k, hk0, hk1, hkfree⟩
        · exact Bool.false_ne_true ((show (initScanSt c f).freeSeen = false from rfl) ▸ h2)
        · exact hnofree ⟨k, hk0, by omega, hkfree⟩

theorem ringfs_format_spec (c : Config) (f : Flash) (fs : RingFS) :
    (∀ k, 0 ≤ k → k < c.sectorCount →
      (ringfs_format c f fs).flash.sectorStatus k = SECTOR_FREE ∧
      (c.version < 2 ^ 32 → (ringfs_format c f fs).flash.sectorVersion k = c.version) ∧
      (∀ j, (ringfs_format c f fs).flash.slotStatus k j = SLOT_ERASED)) ∧
    (ringfs_format c f fs).fs.read = ⟨0, 0⟩ ∧
    (ringfs_format c f fs).fs.write = ⟨0, 0⟩ ∧
    (ringfs_format c f fs).fs.cursor = ⟨0, 0⟩ ∧
    (ringfs_format c f fs).code = 0 := by
  refine ⟨?_, rfl, rfl, rfl, rfl⟩
  intro k hk0 hk1
  unfold ringfs_format sectorList
  obtain ⟨g1, g2, g3⟩ := sector_free_fold_self c c.sectorCount.toNat 0
    ((intsFrom 0 c.sectorCount.toNat).foldl
      (fun acc s => flashProgSectorStatus acc s SECTOR_FORMATTING) f) k hk0 (by omega)
  exact ⟨g1, g2, g3⟩

/-! ## Scan sector bounds -/

theorem scan_sectors_bounds (c : Config) (f : Flash) (hcount : 1 ≤ c.sectorCount)
    (h : scanOk c f = true) :
    0 ≤ scanWriteSector c f ∧ scanWriteSector c f < c.sectorCount ∧
    0 ≤ scanReadSector c f ∧ scanReadSector c f < c.sectorCount := by
  cases hp : scanPass1Result c f with
  | inl f' =>
    have hfalse : scanOk c f = false := by simp [scanOk, hp]
    rw [hfalse] at h
    exact absurd h (by simp)
  | inr st' =>
    have hinv : 0 ≤ (initScanSt c f).readSector ∧ (initScanSt c f).readSector < c.sectorCount ∧
        0 ≤ (initScanSt c f).writeSector ∧ (initScanSt c f).writeSector < c.sectorCount := by
      simp only [initScanSt]
      omega
    have hprev : (initScanSt c f).prev = SECTOR_IN_USE → (1 : Int) ≤ 0 := by
      intro hh
      simp [initScanSt, SECTOR_FREE, SECTOR_IN_USE] at hh
    have hb := scanPass1_bounds c c.sectorCount.toNat 0 (initScanSt c f) st'
      le_rfl (by omega) hinv hprev hp
    have hws : scanWriteSector c f = (if st'.usedSeen = false then 0 else st'.writeSector) := by
      simp [scanWriteSector, hp]
    have hrs : scanReadSector c f = st'.readSector := by
      simp [scanReadSector, hp]
    rw [hws, hrs]
    split_ifs <;> omega

/-! ## Helper facts about ringfs_append -/

theorem advance_sector_inRange {c : Config} {l : Loc} (h : inRange c l) :
    inRange c (_loc_advance_sector c l) := by
  obtain ⟨h1, h2, h3, h4⟩ := h
  simp only [_loc_advance_sector]
  split_ifs with ha <;> simp [inRange] <;> omega

theorem appendNextSector_ne (c : Config) (fs : RingFS) (hcount : 2 ≤ c.sectorCount) :
    appendNextSector c fs ≠ fs.write.sector := by
  intro h
  unfold appendNextSector at h
  have hd : (fs.write.sector + 1).tmod c.sectorCount =
      fs.write.sector + 1 - c.sectorCount * ((fs.write.sector + 1).tdiv c.sectorCount) := by
    rw [Int.tmod_def]
  rw [hd] at h
  have hdvd : c.sectorCount ∣ 1 := ⟨(fs.write.sector + 1).tdiv c.sectorCount, by linarith⟩
  have := Int.le_of_dvd one_pos hdvd
  omega

theorem appendPrep_write (c : Config) (f : Flash) (fs : RingFS) :
    (appendPrep c f fs).2.write = fs.write := by
  simp only [appendPrep]
  split_ifs <;> rfl

theorem appendPrep_cache (c : Config) (f : Flash) (fs : RingFS) :
    (appendPrep c f fs).2.cache = fs.cache ∧
    (appendPrep c f fs).2.cacheFillingLevel = fs.cacheFillingLevel := by
  simp only [appendPrep]
  split_ifs <;> exact ⟨rfl, rfl⟩

theorem appendPrep_fst (c : Config) (f : Flash) (fs : RingFS) :
    (appendPrep c f fs).1 =
      (if f.sectorStatus (appendNextSector c fs) ≠ SECTOR_FREE then
        _sector_free c f (appendNextSector c fs)
      else f) := by
  simp only [appendPrep]
  split_ifs <;> rfl

theorem appendPrep_next_free (c : Config) (f : Flash) (fs : RingFS) :
    (appendPrep c f fs).1.sectorStatus (appendNextSector c fs) = SECTOR_FREE := by
  rw [appendPrep_fst]
  split_ifs with h
  · exact _sector_free_status_self c f (appendNextSector c fs)
  · push_neg at h
    exact h

theorem appendPrep_slot_erased (c : Config) (f : Flash) (fs : RingFS)
    (hstat : f.slotStatus fs.write.sector fs.write.slot = SLOT_ERASED) :
    (appendPrep c f fs).1.slotStatus fs.write.sector fs.write.slot = SLOT_ERASED := by
  rw [appendPrep_fst]
  split_ifs with h
  · by_cases he : fs.write.sector = appendNextSector c fs
    · rw [he]
      exact _sector_free_slotStatus_self c f (appendNextSector c fs) fs.write.slot
    · rw [(_sector_free_other c f (appendNextSector c fs) fs.write.sector he).2.2.1]
      exact hstat
  · exact hstat

theorem appendPrep_payload_erased (c : Config) (f : Flash) (fs : RingFS) (i : Int)
    (hpay : f.slotPayload fs.write.sector fs.write.slot i = 0xFF) :
    (appendPrep c f fs).1.slotPayload fs.write.sector fs.write.slot i = 0xFF := by
  rw [appendPrep_fst]
  split_ifs with h
  · by_cases he : fs.write.sector = appendNextSector c fs
    · rw [he]
      exact _sector_free_payload_self c f (appendNextSector c fs) fs.write.slot i
    · rw [(_sector_free_other c f (appendNextSector c fs) fs.write.sector he).2.2.2]
      exact hpay
  · exact hpay

theorem appendCommit_sectorStatus (c : Config) (f : Flash) (fs : RingFS) (obj : Int → Nat)
    (k : Int) : (appendCommit c f fs obj).flash.sectorStatus k = f.sectorStatus k := rfl

theorem flashProgSectorStatus_other (f : Flash) (sector : Int) (v : Nat) (k : Int)
    (h : k ≠ sector) : (flashProgSectorStatus f sector v).sectorStatus k = f.sectorStatus k := by
  simp [flashProgSectorStatus, h]

theorem ringfs_append_code (c : Config) (f : Flash) (fs : RingFS) (obj : Int → Nat) :
    (ringfs_append c f fs obj).code = 0 ∨ (ringfs_append c f fs obj).code = -1 := by
  simp only [ringfs_append, appendCommit]
  split_ifs <;> simp

theorem ringfs_append_next_free (c : Config) (f : Flash) (fs : RingFS) (obj : Int → Nat)
    (hcount : 2 ≤ c.sectorCount) :
    (ringfs_append c f fs obj).flash.sectorStatus (appendNextSector c fs) = SECTOR_FREE := by
  have hne : appendNextSector c fs ≠ fs.write.sector := appendNextSector_ne c fs hcount
  have hnext := appendPrep_next_free c f fs
  have hw := appendPrep_write c f fs
  simp only [ringfs_append]
  split_ifs with h1 h2
  · rw [appendCommit_sectorStatus]
    rw [flashProgSectorStatus_other _ _ _ _ (by rw [hw]; exact hne)]
    exact hnext
  · exact hnext
  · rw [appendCommit_sectorStatus]
    exact hnext

/-! ## The slot commit sequence -/

theorem appendCommit_spec (c : Config) (f : Flash) (fs : RingFS) (obj : Int → Nat)
    (hstat : f.slotStatus fs.write.sector fs.write.slot = SLOT_ERASED)
    (hpay : ∀ i, 0 ≤ i → i < c.objectSize →
      f.slotPayload fs.write.sector fs.write.slot i = 0xFF)
    (hobj : ∀ i, 0 ≤ i → i < c.objectSize → obj i < 2 ^ 8) :
    (appendCommit c f fs obj).flash.slotStatus fs.write.sector fs.write.slot = SLOT_VALID ∧
    (∀ i, 0 ≤ i → i < c.objectSize →
      (appendCommit c f fs obj).flash.slotPayload fs.write.sector fs.write.slot i = obj i) ∧
    (appendCommit c f fs obj).fs.write = _loc_advance_slot c fs.write ∧
    (appendCommit c f fs obj).fs.read = fs.read ∧
    (appendCommit c f fs obj).fs.cursor = fs.cursor ∧
    (appendCommit c f fs obj).code = 0 := by
  refine ⟨?_, ?_, rfl, rfl, rfl, rfl⟩
  · show (flashProgSlotStatus (flashProgPayload (flashProgSlotStatus f fs.write SLOT_RESERVED)
      fs.write obj c.objectSize) fs.write SLOT_VALID).slotStatus fs.write.sector fs.write.slot
      = SLOT_VALID
    simp [flashProgSlotStatus, flashProgPayload, hstat, progWord_erased_reserved,
      progWord_reserved_valid]
  · intro i h1 h2
    show (flashProgSlotStatus (flashProgPayload (flashProgSlotStatus f fs.write SLOT_RESERVED)
      fs.write obj c.objectSize) fs.write SLOT_VALID).slotPayload fs.write.sector fs.write.slot i
      = obj i
    simp [flashProgSlotStatus, flashProgPayload, h1, h2, hpay i h1 h2,
      progByte_id (obj i) (hobj i h1 h2)]

/-! ## Claim theorems -/

/-- C5: the sector status word is accessed at byte offset sector_size - 8
from the sector start and the version word right after it at sector_size -
8 + 4; slot s starts at byte offset s * (sizeof(slot_header) +
object_size) from the sector start, its status word at its base and its
payload 4 bytes later; and for a geometry produced by ringfs_init (whose
slots_per_sector is the C truncating division (sector_size - 8) /
(4 + object_size)), every slot lies entirely below the 8-byte sector
header that occupies the last 8 bytes of the sector. -/
theorem claim5_on_flash_layout (c : Config) (k s : Int)
    (hinit : c.slotsPerSector = (c.sectorSize - 8).tdiv (4 + c.objectSize))
    (hobj : 0 ≤ c.objectSize) (hs0 : 0 ≤ s) (hs1 : s < c.slotsPerSector) :
    sector_status_address c k = _sector_address c k + c.sectorSize - 8 ∧
    sector_version_address c k = _sector_address c k + c.sectorSize - 8 + 4 ∧
    sector_version_address c k = sector_status_address c k + 4 ∧
    _slot_address c ⟨k, s⟩ = _sector_address c k + s * (4 + c.objectSize) ∧
    slot_status_address c ⟨k, s⟩ = _slot_address c ⟨k, s⟩ ∧
    slot_payload_address c ⟨k, s⟩ = _slot_address c ⟨k, s⟩ + 4 ∧
    _slot_address c ⟨k, s⟩ + (4 + c.objectSize) ≤ _sector_address c k + c.sectorSize - 8 := by
  have hD : 0 < 4 + c.objectSize := by omega
  have hnn : 0 ≤ c.sectorSize - 8 := by
    by_contra hneg
    push_neg at hneg
    have h1 : (-(c.sectorSize - 8)).tdiv (4 + c.objectSize) =
        -((c.sectorSize - 8).tdiv (4 + c.objectSize)) := Int.neg_tdiv _ _
    have h2 : 0 ≤ (-(c.sectorSize - 8)).tdiv (4 + c.objectSize) :=
      Int.tdiv_nonneg (by omega) (by omega)
    rw [hinit] at hs1
    omega
  have heq : (c.sectorSize - 8).tdiv (4 + c.objectSize) =
      (c.sectorSize - 8) / (4 + c.objectSize) := Int.tdiv_eq_ediv hnn (by omega)
  have hmul : (c.sectorSize - 8) / (4 + c.objectSize) * (4 + c.objectSize) ≤
      c.sectorSize - 8 := Int.ediv_mul_le _ (by omega)
  have hsd : c.slotsPerSector * (4 + c.objectSize) ≤ c.sectorSize - 8 := by
    rw [hinit, heq]
    exact hmul
  have hstep := int_mul_succ_le s c.slotsPerSector (4 + c.objectSize) hs1 hD
  have hcomm : (4 + c.objectSize) * s = s * (4 + c.objectSize) := mul_comm _ _
  unfold sector_status_address sector_version_address slot_status_address
    slot_payload_address _slot_address _sector_address
  dsimp only
  omega

/-- C5 witness: the layout equations at the spec's concrete geometry
(sector_size 128, offset 0, 4 sectors, object_size 4, slots_per_sector
15), sector 2, slot 3. -/
theorem claim5_on_flash_layout_witness :
    (⟨128, 0, 4, 4, 1, 15⟩ : Config).slotsPerSector = (128 - 8 : Int).tdiv (4 + 4) ∧
    _slot_address ⟨128, 0, 4, 4, 1, 15⟩ ⟨2, 3⟩ =
      _sector_address ⟨128, 0, 4, 4, 1, 15⟩ 2 + 3 * (4 + 4) ∧
    _slot_address ⟨128, 0, 4, 4, 1, 15⟩ ⟨2, 3⟩ + (4 + 4) ≤
      _sector_address ⟨128, 0, 4, 4, 1, 15⟩ 2 + 128 - 8 :=
  ⟨by decide,
   (claim5_on_flash_layout ⟨128, 0, 4, 4, 1, 15⟩ 2 3 (by decide) (by decide) (by decide)
     (by decide)).2.2.2.1,
   (claim5_on_flash_layout ⟨128, 0, 4, 4, 1, 15⟩ 2 3 (by decide) (by decide) (by decide)
     (by decide)).2.2.2.2.2.2⟩

/-- C1: whenever ringfs_append returns 0 on a state whose write slot is
still ERASED with an erased (all-0xFF) payload area — which is the §3
invariant for the write head — the slot at the old write location ends
with status VALID, its stored payload bytes equal the appended object's
bytes one for one, and the in-RAM write head advances by exactly one
slot, wrapping to slot 0 of the next sector at the end of a sector and to
sector 0 past the last sector. -/
theorem claim1_append_commits (c : Config) (f : Flash) (fs : RingFS) (obj : Int → Nat)
    (h0 : (ringfs_append c f fs obj).code = 0)
    (hstat : f.slotStatus fs.write.sector fs.write.slot = SLOT_ERASED)
    (hpay : ∀ i, 0 ≤ i → i < c.objectSize →
      f.slotPayload fs.write.sector fs.write.slot i = 0xFF)
    (hobj : ∀ i, 0 ≤ i → i < c.objectSize → obj i < 2 ^ 8) :
    (ringfs_append c f fs obj).flash.slotStatus fs.write.sector fs.write.slot = SLOT_VALID ∧
    (∀ i, 0 ≤ i → i < c.objectSize →
      (ringfs_append c f fs obj).flash.slotPayload fs.write.sector fs.write.slot i = obj i) ∧
    (ringfs_append c f fs obj).fs.write = _loc_advance_slot c fs.write ∧
    (ringfs_append c f fs obj).fs.write =
      (if fs.write.slot + 1 < c.slotsPerSector then ⟨fs.write.sector, fs.write.slot + 1⟩
       else if fs.write.sector + 1 < c.sectorCount then ⟨fs.write.sector + 1, 0⟩
       else (⟨0, 0⟩ : Loc)) := by
  have hw := appendPrep_write c f fs
  have hse := appendPrep_slot_erased c f fs hstat
  have hadv : _loc_advance_slot c fs.write =
      (if fs.write.slot + 1 < c.slotsPerSector then ⟨fs.write.sector, fs.write.slot + 1⟩
       else if fs.write.sector + 1 < c.sectorCount then ⟨fs.write.sector + 1, 0⟩
       else (⟨0, 0⟩ : Loc)) := by
    rw [advance_slot_eq]
    split_ifs <;> first | rfl | (exfalso; omega)
  have hpe : ∀ i, 0 ≤ i → i < c.objectSize →
      (appendPrep c f fs).1.slotPayload fs.write.sector fs.write.slot i = 0xFF :=
    fun i hi1 hi2 => appendPrep_payload_erased c f fs i (hpay i hi1 hi2)
  simp only [ringfs_append] at h0 ⊢
  by_cases h1 : (appendPrep c f fs).1.sectorStatus (appendPrep c f fs).2.write.sector =
      SECTOR_FREE
  · rw [if_pos h1] at h0 ⊢
    rw [hw] at h0 ⊢
    have hcommit := appendCommit_spec c
      (flashProgSectorStatus (appendPrep c f fs).1 fs.write.sector SECTOR_IN_USE)
      (appendPrep c f fs).2 obj
      (by rw [hw]; exact hse)
      (by rw [hw]; exact hpe)
      hobj
    rw [hw] at hcommit
    refine ⟨hcommit.1, hcommit.2.1, hcommit.2.2.1, ?_⟩
    rw [hcommit.2.2.1]
    exact hadv
  · rw [if_neg h1] at h0 ⊢
    by_cases h2 : (appendPrep c f fs).1.sectorStatus (appendPrep c f fs).2.write.sector ≠
        SECTOR_IN_USE
    · rw [if_pos h2] at h0
      simp at h0
    · rw [if_neg h2] at h0 ⊢
      have hcommit := appendCommit_spec c (appendPrep c f fs).1 (appendPrep c f fs).2 obj
        (by rw [hw]; exact hse)
        (by rw [hw]; exact hpe)
        hobj
      rw [hw] at hcommit
      refine ⟨hcommit.1, hcommit.2.1, hcommit.2.2.1, ?_⟩
      rw [hcommit.2.2.1]
      exact hadv

/-- C1 witness: appending the constant object 7 to a freshly formatted
4-sector geometry commits slot (0, 0) as VALID and advances the write
head to (0, 1). -/
theorem claim1_append_commits_witness :
    (ringfs_append ⟨128, 0, 4, 4, 1, 15⟩
      ⟨fun _ => SECTOR_FREE, fun _ => 1, fun _ _ => SLOT_ERASED, fun _ _ _ => 0xFF⟩
      ⟨⟨0, 0⟩, ⟨0, 0⟩, ⟨0, 0⟩, fun _ => 0, 0⟩ (fun _ => 7)).code = 0 ∧
    (ringfs_append ⟨128, 0, 4, 4, 1, 15⟩
      ⟨fun _ => SECTOR_FREE, fun _ => 1, fun _ _ => SLOT_ERASED, fun _ _ _ => 0xFF⟩
      ⟨⟨0, 0⟩, ⟨0, 0⟩, ⟨0, 0⟩, fun _ => 0, 0⟩ (fun _ => 7)).flash.slotStatus 0 0 =
      SLOT_VALID :=
  ⟨by decide,
   (claim1_append_commits ⟨128, 0, 4, 4, 1, 15⟩
      ⟨fun _ => SECTOR_FREE, fun _ => 1, fun _ _ => SLOT_ERASED, fun _ _ _ => 0xFF⟩
      ⟨⟨0, 0⟩, ⟨0, 0⟩, ⟨0, 0⟩, fun _ => 0, 0⟩ (fun _ => 7)
      (by decide) (by decide) (fun i h1 h2 => rfl) (fun i h1 h2 => by norm_num)).1⟩

/-- C9: ringfs_append_to_cache with 0 ≤ len ≤ CACHE_SIZE: when the
incoming bytes would overflow the 252-byte buffer, the buffered page is
first appended as one object (the resulting flash and heads are exactly
those of ringfs_append on the old cache) and the filling level is reset,
so that after the call it equals len and the len bytes sit at the start
of the buffer; otherwise the bytes are copied in at the old filling level
which grows by len; the call returns len unless the flush's append
returned -1, in which case it returns -1. -/
theorem claim9_append_to_cache (c : Config) (f : Flash) (fs : RingFS)
    (obj : Int → Nat) (size : Int) (hsz0 : 0 ≤ size) (hsz1 : size ≤ CACHE_SIZE) :
    (CACHE_SIZE < size + fs.cacheFillingLevel →
      (ringfs_append_to_cache c f fs obj size).flash = (ringfs_append c f fs fs.cache).flash ∧
      (ringfs_append_to_cache c f fs obj size).fs.read = (ringfs_append c f fs fs.cache).fs.read ∧
      (ringfs_append_to_cache c f fs obj size).fs.write =
        (ringfs_append c f fs fs.cache).fs.write ∧
      (ringfs_append_to_cache c f fs obj size).fs.cursor =
        (ringfs_append c f fs fs.cache).fs.cursor ∧
      (ringfs_append_to_cache c f fs obj size).fs.cacheFillingLevel = size ∧
      (∀ i, 0 ≤ i → i < size → (ringfs_append_to_cache c f fs obj size).fs.cache i = obj i) ∧
      ((ringfs_append c f fs fs.cache).code = 0 →
        (ringfs_append_to_cache c f fs obj size).code = size) ∧
      ((ringfs_append c f fs fs.cache).code = -1 →
        (ringfs_append_to_cache c f fs obj size).code = -1)) ∧
    (¬ CACHE_SIZE < size + fs.cacheFillingLevel →
      (ringfs_append_to_cache c f fs obj size).flash = f ∧
      (ringfs_append_to_cache c f fs obj size).fs.cacheFillingLevel =
        fs.cacheFillingLevel + size ∧
      (∀ i, 0 ≤ i → i < size →
        (ringfs_append_to_cache c f fs obj size).fs.cache (fs.cacheFillingLevel + i) = obj i) ∧
      (ringfs_append_to_cache c f fs obj size).code = size) := by
  constructor
  · intro hflush
    simp only [ringfs_append_to_cache]
    rw [if_pos hflush]
    refine ⟨rfl, rfl, rfl, rfl, by dsimp only; omega, ?_, ?_, ?_⟩
    · intro i h1 h2
      show memcpyAt (ringfs_append c f fs fs.cache).fs.cache 0 obj size i = obj i
      unfold memcpyAt
      rw [if_pos ⟨by omega, by omega⟩, sub_zero]
    · intro hr0
      show (if (ringfs_append c f fs fs.cache).code = 0 then size
        else (ringfs_append c f fs fs.cache).code) = size
      rw [if_pos hr0]
    · intro hr1
      show (if (ringfs_append c f fs fs.cache).code = 0 then size
        else (ringfs_append c f fs fs.cache).code) = -1
      rw [if_neg (by omega), hr1]
  · intro hnoflush
    simp only [ringfs_append_to_cache]
    rw [if_neg hnoflush]
    refine ⟨rfl, rfl, ?_, rfl⟩
    intro i h1 h2
    show memcpyAt fs.cache fs.cacheFillingLevel obj size (fs.cacheFillingLevel + i) = obj i
    unfold memcpyAt
    rw [if_pos ⟨by omega, by omega⟩, add_sub_cancel_left]

/-- C9 witness: a 4-byte write into an empty cache does not flush, lands
at offset 0 and returns 4. -/
theorem claim9_append_to_cache_witness :
    ¬ CACHE_SIZE < (4 : Int) + (0 : Int) ∧
    (ringfs_append_to_cache ⟨128, 0, 4, 4, 1, 15⟩
      ⟨fun _ => SECTOR_FREE, fun _ => 1, fun _ _ => SLOT_ERASED, fun _ _ _ => 0xFF⟩
      ⟨⟨0, 0⟩, ⟨0, 0⟩, ⟨0, 0⟩, fun _ => 0, 0⟩ (fun _ => 9) 4).code = 4 :=
  ⟨by decide,
   ((claim9_append_to_cache ⟨128, 0, 4, 4, 1, 15⟩
      ⟨fun _ => SECTOR_FREE, fun _ => 1, fun _ _ => SLOT_ERASED, fun _ _ _ => 0xFF⟩
      ⟨⟨0, 0⟩, ⟨0, 0⟩, ⟨0, 0⟩, fun _ => 0, 0⟩ (fun _ => 9) 4 (by decide) (by decide)).2
      (by decide)).2.2.2⟩

/-! ## Helpers for C10 -/

theorem appendPrep_locs_inRange (c : Config) (f : Flash) (fs : RingFS)
    (hr : inRange c fs.read) (hcur : inRange c fs.cursor) :
    inRange c (appendPrep c f fs).2.read ∧ inRange c (appendPrep c f fs).2.cursor := by
  simp only [appendPrep]
  split_ifs <;>
    exact ⟨by first | exact hr | exact advance_sector_inRange hr,
           by first | exact hcur | exact advance_sector_inRange hcur⟩

/-- C10: with a geometry of at least one sector and one slot per sector,
every public operation keeps the read, write and cursor heads within
0 ≤ sector < sector_count and 0 ≤ slot < slots_per_sector, because every
head update goes through the advance functions (or resets to (0, 0)). -/
theorem claim10_heads_stay_in_bounds (c : Config) (f : Flash) (fs : RingFS)
    (buf obj : Int → Nat)
    (hc : 1 ≤ c.sectorCount) (hs : 1 ≤ c.slotsPerSector)
    (hr : inRange c fs.read) (hw : inRange c fs.write) (hcur : inRange c fs.cursor) :
    (inRange c (ringfs_format c f fs).fs.read ∧ inRange c (ringfs_format c f fs).fs.write ∧
      inRange c (ringfs_format c f fs).fs.cursor) ∧
    (inRange c (ringfs_scan c f fs).fs.read ∧ inRange c (ringfs_scan c f fs).fs.write ∧
      inRange c (ringfs_scan c f fs).fs.cursor) ∧
    (inRange c (ringfs_append c f fs obj).fs.read ∧
      inRange c (ringfs_append c f fs obj).fs.write ∧
      inRange c (ringfs_append c f fs obj).fs.cursor) ∧
    (inRange c (ringfs_fetch c f fs buf).fs.read ∧
      inRange c (ringfs_fetch c f fs buf).fs.write ∧
      inRange c (ringfs_fetch c f fs buf).fs.cursor) ∧
    (inRange c (ringfs_discard c f fs).fs.read ∧ inRange c (ringfs_discard c f fs).fs.write ∧
      inRange c (ringfs_discard c f fs).fs.cursor) ∧
    (inRange c (ringfs_item_discard c f fs).fs.read ∧
      inRange c (ringfs_item_discard c f fs).fs.write ∧
      inRange c (ringfs_item_discard c f fs).fs.cursor) ∧
    (inRange c (ringfs_rewind f fs).fs.read ∧ inRange c (ringfs_rewind f fs).fs.write ∧
      inRange c (ringfs_rewind f fs).fs.cursor) := by
  have h00 : inRange c (⟨0, 0⟩ : Loc) := by
    dsimp only [inRange]
    omega
  refine ⟨⟨h00, h00, h00⟩, ?_, ?_, ?_, ?_, ?_, ?_⟩
  · -- scan
    by_cases hok : scanOk c f = true
    · rw [ringfs_scan_of_ok c f fs hok]
      have hb := scan_sectors_bounds c f hc hok
      have hwsloc : inRange c (scanWriteLoc c f) := by
        unfold scanWriteLoc
        apply scanWriteLoop_inRange
        dsimp only [inRange]
        omega
      have hrdloc : inRange c (scanReadLoc c f) := by
        unfold scanReadLoc
        apply scanReadLoop_inRange
        dsimp only [inRange]
        omega
      exact ⟨hrdloc, hwsloc, hrdloc⟩
    · unfold ringfs_scan
      rw [if_neg hok]
      exact ⟨hr, hw, hcur⟩
  · -- append
    have hpl := appendPrep_locs_inRange c f fs hr hcur
    have hpw := appendPrep_write c f fs
    have hwadv : inRange c (_loc_advance_slot c (appendPrep c f fs).2.write) := by
      rw [hpw]
      exact advance_inRange hw
    simp only [ringfs_append]
    split_ifs
    · exact ⟨hpl.1, hwadv, hpl.2⟩
    · exact ⟨hpl.1, by rw [hpw]; exact hw, hpl.2⟩
    · exact ⟨hpl.1, hwadv, hpl.2⟩
  · -- fetch
    exact ⟨hr, hw, fetchLoop_loc_inRange c f fs.write (scanFuel c) fs.cursor buf hcur⟩
  · -- discard
    exact ⟨discardLoop_loc_inRange c (scanFuel c) f fs.read fs.cursor hr, hw, hcur⟩
  · -- item_discard
    exact ⟨advance_inRange hr, hw, hcur⟩
  · -- rewind
    exact ⟨hr, hw, hr⟩

/-- C10 witness: the bounds hypotheses and the fetch conclusion at a
concrete in-range state. -/
theorem claim10_heads_stay_in_bounds_witness :
    inRange ⟨128, 0, 4, 4, 1, 15⟩ (⟨2, 7⟩ : Loc) ∧
    inRange ⟨128, 0, 4, 4, 1, 15⟩
      (ringfs_fetch ⟨128, 0, 4, 4, 1, 15⟩
        ⟨fun _ => SECTOR_FREE, fun _ => 1, fun _ _ => SLOT_ERASED, fun _ _ _ => 0xFF⟩
        ⟨⟨2, 7⟩, ⟨2, 7⟩, ⟨2, 7⟩, fun _ => 0, 0⟩ (fun _ => 0)).fs.cursor :=
  ⟨by decide,
   (claim10_heads_stay_in_bounds ⟨128, 0, 4, 4, 1, 15⟩
      ⟨fun _ => SECTOR_FREE, fun _ => 1, fun _ _ => SLOT_ERASED, fun _ _ _ => 0xFF⟩
      ⟨⟨2, 7⟩, ⟨2, 7⟩, ⟨2, 7⟩, fun _ => 0, 0⟩ (fun _ => 0) (fun _ => 0)
      (by decide) (by decide) (by decide) (by decide) (by decide)).2.2.2.1.2.2⟩

/-- The O(1) estimate equals the ring distance from read to write under
the §3 ring invariants (both heads in range; read at or before write
inside a shared sector). -/
theorem count_estimate_eq_ringDist (c : Config) (fs : RingFS)
    (hr : inRange c fs.read) (hw : inRange c fs.write)
    (hslot : fs.read.sector = fs.write.sector → fs.read.slot ≤ fs.write.slot) :
    ringfs_count_estimate c fs = ringDist c fs.read fs.write := by
  obtain ⟨hr1, hr2, hr3, hr4⟩ := hr
  obtain ⟨hw1, hw2, hw3, hw4⟩ := hw
  simp only [ringfs_count_estimate, ringDist, lidx, ringN]
  rcases lt_trichotomy fs.read.sector fs.write.sector with hlt | heq | hgt
  · have hmod : (fs.write.sector - fs.read.sector + c.sectorCount).tmod c.sectorCount =
        fs.write.sector - fs.read.sector := by
      rw [Int.tmod_eq_emod (by omega) (by omega)]
      rw [show fs.write.sector - fs.read.sector + c.sectorCount =
        fs.write.sector - fs.read.sector + c.sectorCount * 1 by ring]
      rw [Int.add_mul_emod_self_left]
      exact Int.emod_eq_of_lt (by omega) (by omega)
    rw [hmod]
    have hm1 := int_mul_succ_le fs.read.sector fs.write.sector c.slotsPerSector hlt (by omega)
    have hexp : (fs.write.sector - fs.read.sector) * c.slotsPerSector =
        fs.write.sector * c.slotsPerSector - fs.read.sector * c.slotsPerSector := by ring
    rw [if_pos (by omega)]
    omega
  · have hs := hslot heq
    have hmod : (fs.write.sector - fs.read.sector + c.sectorCount).tmod c.sectorCount = 0 := by
      rw [heq, show fs.write.sector - fs.write.sector + c.sectorCount = c.sectorCount by ring,
        Int.tmod_eq_emod (by omega) (by omega), Int.emod_self]
    rw [hmod, heq]
    rw [if_pos (by omega)]
    omega
  · have hmod : (fs.write.sector - fs.read.sector + c.sectorCount).tmod c.sectorCount =
        fs.write.sector - fs.read.sector + c.sectorCount := by
      rw [Int.tmod_eq_emod (by omega) (by omega)]
      exact Int.emod_eq_of_lt (by omega) (by omega)
    rw [hmod]
    have hm1 := int_mul_succ_le fs.write.sector fs.read.sector c.slotsPerSector hgt (by omega)
    have hexp : (fs.write.sector - fs.read.sector + c.sectorCount) * c.slotsPerSector =
        fs.write.sector * c.slotsPerSector - fs.read.sector * c.slotsPerSector +
          c.sectorCount * c.slotsPerSector := by ring
    rw [if_neg (by omega)]
    omega

/-- C7: in every state satisfying the §3 ring invariants (read and write
heads in range, and read not past write within a shared sector — the
reachable-state invariant), the O(1) ringfs_count_estimate is at least
the O(n) ringfs_count_exact. -/
theorem claim7_estimate_ge_exact (c : Config) (f : Flash) (fs : RingFS)
    (hr : inRange c fs.read) (hw : inRange c fs.write)
    (hslot : fs.read.sector = fs.write.sector → fs.read.slot ≤ fs.write.slot) :
    ringfs_count_exact c f fs ≤ ringfs_count_estimate c fs := by
  have hcount : 1 ≤ c.sectorCount := by
    obtain ⟨a, b, _, _⟩ := hr
    omega
  have hsps : 1 ≤ c.slotsPerSector := by
    obtain ⟨_, _, a, b⟩ := hr
    omega
  have hdN := ringDist_lt hr hw
  have hd0 := ringDist_nonneg hr hw
  have hca : ((c.sectorCount.toNat : Int)) = c.sectorCount := Int.toNat_of_nonneg (by omega)
  have hcb : ((c.slotsPerSector.toNat : Int)) = c.slotsPerSector := Int.toNat_of_nonneg (by omega)
  have hprod : ((c.sectorCount.toNat * c.slotsPerSector.toNat : Nat) : Int) =
      c.sectorCount * c.slotsPerSector := by
    push_cast
    rw [hca, hcb]
  have hfuel : (ringDist c fs.read fs.write).toNat < scanFuel c := by
    unfold scanFuel
    unfold ringN at hdN
    omega
  have hle := countLoop_le c f fs.write hw (ringDist c fs.read fs.write).toNat (scanFuel c)
    fs.read 0 hr rfl hfuel
  rw [count_estimate_eq_ringDist c fs hr hw hslot]
  unfold ringfs_count_exact
  omega

/-- C7 witness: at a concrete in-range state with two VALID slots in the
window, exact ≤ estimate. -/
theorem claim7_estimate_ge_exact_witness :
    inRange ⟨128, 0, 4, 4, 1, 15⟩ (⟨0, 0⟩ : Loc) ∧
    ringfs_count_exact ⟨128, 0, 4, 4, 1, 15⟩
      ⟨fun _ => SECTOR_IN_USE, fun _ => 1, fun _ j => if j < 2 then SLOT_VALID else SLOT_ERASED,
        fun _ _ _ => 0xFF⟩
      ⟨⟨0, 0⟩, ⟨0, 2⟩, ⟨0, 0⟩, fun _ => 0, 0⟩ ≤
    ringfs_count_estimate ⟨128, 0, 4, 4, 1, 15⟩ ⟨⟨0, 0⟩, ⟨0, 2⟩, ⟨0, 0⟩, fun _ => 0, 0⟩ :=
  ⟨by decide,
   claim7_estimate_ge_exact ⟨128, 0, 4, 4, 1, 15⟩
      ⟨fun _ => SECTOR_IN_USE, fun _ => 1, fun _ j => if j < 2 then SLOT_VALID else SLOT_ERASED,
        fun _ _ _ => 0xFF⟩
      ⟨⟨0, 0⟩, ⟨0, 2⟩, ⟨0, 0⟩, fun _ => 0, 0⟩ (by decide) (by decide) (fun _ => by decide)⟩

theorem ringDist_toNat_lt_fuel {c : Config} {a b : Loc} (ha : inRange c a)
    (hb : inRange c b) : (ringDist c a b).toNat < scanFuel c := by
  have hcount : 1 ≤ c.sectorCount := by
    obtain ⟨x, y, _, _⟩ := ha
    omega
  have hsps : 1 ≤ c.slotsPerSector := by
    obtain ⟨_, _, x, y⟩ := ha
    omega
  have hdN := ringDist_lt ha hb
  have hd0 := ringDist_nonneg ha hb
  have hca : ((c.sectorCount.toNat : Int)) = c.sectorCount := Int.toNat_of_nonneg (by omega)
  have hcb : ((c.slotsPerSector.toNat : Int)) = c.slotsPerSector := Int.toNat_of_nonneg (by omega)
  have hprod : ((c.sectorCount.toNat * c.slotsPerSector.toNat : Nat) : Int) =
      c.sectorCount * c.slotsPerSector := by
    push_cast
    rw [hca, hcb]
  unfold scanFuel
  unfold ringN at hdN
  omega

/-- C2: fetch returns 0 exactly when some VALID slot lies in the ring
window from the cursor (inclusive) up to the write head (exclusive); in
that case the first such slot's payload is copied into the caller's
buffer and the cursor advances just past that slot, the read and write
heads staying put; when no VALID slot lies in the window (in particular
when cursor = write) fetch returns -1, having skipped the non-VALID
slots (the cursor ends at the write head) and left the buffer untouched. -/
theorem claim2_fetch_first_valid (c : Config) (f : Flash) (fs : RingFS) (buf : Int → Nat)
    (hcur : inRange c fs.cursor) (hw : inRange c fs.write) :
    ((ringfs_fetch c f fs buf).code = 0 ↔
      ∃ k : Nat, (k : Int) < ringDist c fs.cursor fs.write ∧
        f.slotStatus (locIter c k fs.cursor).sector (locIter c k fs.cursor).slot = SLOT_VALID) ∧
    (∀ k0 : Nat, (k0 : Int) < ringDist c fs.cursor fs.write →
      f.slotStatus (locIter c k0 fs.cursor).sector (locIter c k0 fs.cursor).slot = SLOT_VALID →
      (∀ j : Nat, j < k0 →
        f.slotStatus (locIter c j fs.cursor).sector (locIter c j fs.cursor).slot ≠
          SLOT_VALID) →
      (ringfs_fetch c f fs buf).code = 0 ∧
      (ringfs_fetch c f fs buf).fs.cursor = _loc_advance_slot c (locIter c k0 fs.cursor) ∧
      (ringfs_fetch c f fs buf).fs.read = fs.read ∧
      (ringfs_fetch c f fs buf).fs.write = fs.write ∧
      (∀ i, 0 ≤ i → i < c.objectSize →
        (ringfs_fetch c f fs buf).buf i =
          f.slotPayload (locIter c k0 fs.cursor).sector (locIter c k0 fs.cursor).slot i)) ∧
    ((∀ k : Nat, (k : Int) < ringDist c fs.cursor fs.write →
        f.slotStatus (locIter c k fs.cursor).sector (locIter c k fs.cursor).slot ≠
          SLOT_VALID) →
      (ringfs_fetch c f fs buf).code = -1 ∧
      (ringfs_fetch c f fs buf).fs.cursor = fs.write ∧
      (ringfs_fetch c f fs buf).fs.read = fs.read ∧
      (ringfs_fetch c f fs buf).fs.write = fs.write ∧
      (ringfs_fetch c f fs buf).buf = buf) := by
  have hfuel := ringDist_toNat_lt_fuel hcur hw
  have hpos : ∀ k0 : Nat, (k0 : Int) < ringDist c fs.cursor fs.write →
      f.slotStatus (locIter c k0 fs.cursor).sector (locIter c k0 fs.cursor).slot =
        SLOT_VALID →
      (∀ j : Nat, j < k0 →
        f.slotStatus (locIter c j fs.cursor).sector (locIter c j fs.cursor).slot ≠
          SLOT_VALID) →
      (ringfs_fetch c f fs buf).code = 0 ∧
      (ringfs_fetch c f fs buf).fs.cursor = _loc_advance_slot c (locIter c k0 fs.cursor) ∧
      (ringfs_fetch c f fs buf).fs.read = fs.read ∧
      (ringfs_fetch c f fs buf).fs.write = fs.write ∧
      (∀ i, 0 ≤ i → i < c.objectSize →
        (ringfs_fetch c f fs buf).buf i =
          f.slotPayload (locIter c k0 fs.cursor).sector (locIter c k0 fs.cursor).slot i) := by
    intro k0 hk hv hmin
    have hloop := fetchLoop_found c f fs.write hw k0 (scanFuel c) fs.cursor buf hcur hk
      hfuel hv hmin
    refine ⟨by simp [ringfs_fetch, hloop], by simp [ringfs_fetch, hloop], rfl, rfl, ?_⟩
    intro i h1 h2
    simp [ringfs_fetch, hloop, readPayloadInto, h1, h2]
  have hneg : (∀ k : Nat, (k : Int) < ringDist c fs.cursor fs.write →
      f.slotStatus (locIter c k fs.cursor).sector (locIter c k fs.cursor).slot ≠
        SLOT_VALID) →
      (ringfs_fetch c f fs buf).code = -1 ∧
      (ringfs_fetch c f fs buf).fs.cursor = fs.write ∧
      (ringfs_fetch c f fs buf).fs.read = fs.read ∧
      (ringfs_fetch c f fs buf).fs.write = fs.write ∧
      (ringfs_fetch c f fs buf).buf = buf := by
    intro hall
    have hloop := fetchLoop_none c f fs.write hw (ringDist c fs.cursor fs.write).toNat
      (scanFuel c) fs.cursor buf hcur rfl hfuel hall
    exact ⟨by simp [ringfs_fetch, hloop], by simp [ringfs_fetch, hloop], rfl, rfl,
      by simp [ringfs_fetch, hloop]⟩
  refine ⟨⟨?_, ?_⟩, hpos, hneg⟩
  · intro h0
    by_contra hnex
    push_neg at hnex
    have := (hneg hnex).1
    omega
  · intro hex
    have hk0 := Nat.find_spec hex
    have hmin : ∀ j : Nat, j < Nat.find hex →
        f.slotStatus (locIter c j fs.cursor).sector (locIter c j fs.cursor).slot ≠
          SLOT_VALID := by
      intro j hj hvj
      exact Nat.find_min hex hj ⟨by
        have := hk0.1
        push_cast at this ⊢
        omega, hvj⟩
    exact (hpos (Nat.find hex) hk0.1 hk0.2 hmin).1

/-- C2 witness: with a GARBAGE slot followed by a VALID slot in the
window, fetch returns 0. -/
theorem claim2_fetch_first_valid_witness :
    inRange ⟨128, 0, 4, 4, 1, 15⟩ (⟨0, 2⟩ : Loc) ∧
    (ringfs_fetch ⟨128, 0, 4, 4, 1, 15⟩
      ⟨fun _ => SECTOR_IN_USE, fun _ => 1,
        fun _ j => if j = 0 then SLOT_GARBAGE else (if j = 1 then SLOT_VALID else SLOT_ERASED),
        fun _ _ i => if i = 0 then 42 else 0⟩
      ⟨⟨0, 0⟩, ⟨0, 2⟩, ⟨0, 0⟩, fun _ => 0, 0⟩ (fun _ => 0)).code = 0 :=
  ⟨by decide,
   (claim2_fetch_first_valid ⟨128, 0, 4, 4, 1, 15⟩
      ⟨fun _ => SECTOR_IN_USE, fun _ => 1,
        fun _ j => if j = 0 then SLOT_GARBAGE else (if j = 1 then SLOT_VALID else SLOT_ERASED),
        fun _ _ i => if i = 0 then 42 else 0⟩
      ⟨⟨0, 0⟩, ⟨0, 2⟩, ⟨0, 0⟩, fun _ => 0, 0⟩ (fun _ => 0) (by decide) (by decide)).2.1 1
      (by decide) (by decide)
      (fun j hj => by
        have hj0 : j = 0 := by omega
        subst hj0
        decide) |>.1⟩

theorem ringfs_scan_flash (c : Config) (f : Flash) (fs : RingFS) :
    (ringfs_scan c f fs).flash = scanFlash c f := by
  unfold ringfs_scan
  split_ifs <;> rfl

theorem scanOk_free_exists (c : Config) (f : Flash) (h : scanOk c f = true) :
    ∃ k, 0 ≤ k ∧ k < c.sectorCount ∧ (scanFlash c f).sectorStatus k = SECTOR_FREE := by
  by_cases hc : 0 ≤ c.sectorCount
  · cases hp : scanPass1Result c f with
    | inl f' =>
      rw [show scanOk c f = false by simp [scanOk, hp]] at h
      exact absurd h (by simp)
    | inr st' =>
      have hfs : st'.freeSeen = true := by
        rw [show scanOk c f = st'.freeSeen by simp [scanOk, hp]] at h
        exact h
      have := scanPass1_free_exists c c.sectorCount.toNat 0 (initScanSt c f) st'
        le_rfl (by omega) hp
        (fun hff => by simp [initScanSt] at hff) hfs
      obtain ⟨k, h1, h2, h3⟩ := this
      refine ⟨k, h1, h2, ?_⟩
      rw [show scanFlash c f = st'.flash by simp [scanFlash, hp]]
      exact h3
  · exfalso
    push_neg at hc
    have hz : c.sectorCount.toNat = 0 := by omega
    have hp : scanPass1Result c f = Sum.inr (initScanSt c f) := by
      unfold scanPass1Result sectorList
      rw [hz]
      rfl
    rw [show scanOk c f = (initScanSt c f).freeSeen by simp [scanOk, hp]] at h
    simp [initScanSt] at h

theorem appendNextSector_bounds (c : Config) (fs : RingFS) (hcount : 1 ≤ c.sectorCount)
    (hws : 0 ≤ fs.write.sector) :
    0 ≤ appendNextSector c fs ∧ appendNextSector c fs < c.sectorCount := by
  unfold appendNextSector
  rw [Int.tmod_eq_emod (by omega) (by omega)]
  exact ⟨Int.emod_nonneg _ (by omega), Int.emod_lt_of_pos _ (by omega)⟩

/-- C3 counterexample: a one-sector flash whose single sector is FREE but
carries version 2 while the instance is configured with version 1.  No
sector is FORMATTING, every sector is FREE or IN_USE after repair, every
IN_USE sector (there is none) matches the configured version, and a FREE
sector is observed — so the claim as stated requires scan to return 0 —
yet scan returns -1, because the code checks the version word of every
sector, not only of IN_USE ones. -/
theorem claim3_scan_version_counterexample :
    (ringfs_scan ⟨16, 0, 1, 4, 1, 1⟩
      ⟨fun _ => SECTOR_FREE, fun _ => 2, fun _ _ => SLOT_ERASED, fun _ _ _ => 0xFF⟩
      ⟨⟨0, 0⟩, ⟨0, 0⟩, ⟨0, 0⟩, fun _ => 0, 0⟩).code = -1 ∧
    (∀ k, 0 ≤ k → k < (1 : Int) →
      (⟨fun _ => SECTOR_FREE, fun _ => 2, fun _ _ => SLOT_ERASED, fun _ _ _ => 0xFF⟩ :
        Flash).sectorStatus k ≠ SECTOR_FORMATTING) ∧
    (∀ k, 0 ≤ k → k < (1 : Int) →
      sectorRepairedStatus
        ⟨fun _ => SECTOR_FREE, fun _ => 2, fun _ _ => SLOT_ERASED, fun _ _ _ => 0xFF⟩ k =
        SECTOR_FREE) ∧
    (∀ k, 0 ≤ k → k < (1 : Int) →
      (⟨fun _ => SECTOR_FREE, fun _ => 2, fun _ _ => SLOT_ERASED, fun _ _ _ => 0xFF⟩ :
        Flash).sectorStatus k = SECTOR_IN_USE →
      (⟨fun _ => SECTOR_FREE, fun _ => 2, fun _ _ => SLOT_ERASED, fun _ _ _ => 0xFF⟩ :
        Flash).sectorVersion k = (⟨16, 0, 1, 4, 1, 1⟩ : Config).version) ∧
    (∃ k, 0 ≤ k ∧ k < (1 : Int) ∧
      (⟨fun _ => SECTOR_FREE, fun _ => 2, fun _ _ => SLOT_ERASED, fun _ _ _ => 0xFF⟩ :
        Flash).sectorStatus k = SECTOR_FREE) := by
  refine ⟨by decide, ?_, ?_, ?_, ⟨0, by decide, by decide, by decide⟩⟩
  · intro k _ _
    exact (by decide : ¬ (SECTOR_FREE = SECTOR_FORMATTING))
  · intro k _ _
    unfold sectorRepairedStatus
    norm_num [SECTOR_FREE, SECTOR_ERASING, SECTOR_ERASED]
  · intro k _ _ hk
    rw [show (⟨fun _ => SECTOR_FREE, fun _ => 2, fun _ _ => SLOT_ERASED, fun _ _ _ => 0xFF⟩ :
      Flash).sectorStatus k = SECTOR_FREE from rfl] at hk
    exact absurd hk (by decide)

/-- C3 (amended): scan returns -1 exactly when, over the sectors in index
order, some sector's status is FORMATTING, or some sector's status after
the ERASED/ERASING repair is neither FREE nor IN_USE, or some sector's
version word (as read before any repair — the code applies this check to
every sector, not only to IN_USE ones) differs from the configured
version, or no sector with (post-repair) status FREE was observed;
otherwise scan returns 0. -/
theorem claim3_scan_failure_characterization (c : Config) (f : Flash) (fs : RingFS) :
    (ringfs_scan c f fs).code = -1 ↔
      ((∃ k, 0 ≤ k ∧ k < c.sectorCount ∧ sectorBad c f k) ∨
       ((∀ k, 0 ≤ k → k < c.sectorCount → ¬ sectorBad c f k) ∧
        ¬ ∃ k, 0 ≤ k ∧ k < c.sectorCount ∧ sectorRepairedStatus f k = SECTOR_FREE)) :=
  scan_fail_iff c f fs

/-- C4 counterexample: on a one-sector instance whose only sector is
FREE, a successful append marks that sector IN_USE and leaves no FREE
sector at all. -/
theorem claim4_single_sector_counterexample :
    (∃ k, 0 ≤ k ∧ k < (⟨16, 0, 1, 4, 1, 1⟩ : Config).sectorCount ∧
      (⟨fun _ => SECTOR_FREE, fun _ => 1, fun _ _ => SLOT_ERASED, fun _ _ _ => 0xFF⟩ :
        Flash).sectorStatus k = SECTOR_FREE) ∧
    (ringfs_append ⟨16, 0, 1, 4, 1, 1⟩
      ⟨fun _ => SECTOR_FREE, fun _ => 1, fun _ _ => SLOT_ERASED, fun _ _ _ => 0xFF⟩
      ⟨⟨0, 0⟩, ⟨0, 0⟩, ⟨0, 0⟩, fun _ => 0, 0⟩ (fun _ => 7)).code = 0 ∧
    ¬ (∃ k, 0 ≤ k ∧ k < (⟨16, 0, 1, 4, 1, 1⟩ : Config).sectorCount ∧
      (ringfs_append ⟨16, 0, 1, 4, 1, 1⟩
        ⟨fun _ => SECTOR_FREE, fun _ => 1, fun _ _ => SLOT_ERASED, fun _ _ _ => 0xFF⟩
        ⟨⟨0, 0⟩, ⟨0, 0⟩, ⟨0, 0⟩, fun _ => 0, 0⟩ (fun _ => 7)).flash.sectorStatus k =
        SECTOR_FREE) := by
  refine ⟨⟨0, by decide, by decide, by decide⟩, by decide, ?_⟩
  rintro ⟨k, h1, h2, h3⟩
  have h2' : k < (1 : Int) := h2
  have hk : k = 0 := by omega
  subst hk
  exact absurd h3 (by decide)

/-- C4 (amended): for instances with at least two sectors and the write
head in a valid sector, every operation preserves the "at least one FREE
sector" invariant: format leaves every sector FREE; a successful scan has
observed (and leaves) a FREE sector; a successful append leaves the
sector after the write sector FREE, having freed it via the ERASING →
erase → version → FREE protocol of _sector_free before any slot of the
write sector is touched; and fetch, discard, discard_one and rewind never
change any sector status. -/
theorem claim4_free_sector_invariant (c : Config) (f : Flash) (fs : RingFS)
    (buf obj : Int → Nat) (hcount : 2 ≤ c.sectorCount)
    (hws0 : 0 ≤ fs.write.sector) (hws1 : fs.write.sector < c.sectorCount)
    (hfree : ∃ k, 0 ≤ k ∧ k < c.sectorCount ∧ f.sectorStatus k = SECTOR_FREE) :
    (∃ k, 0 ≤ k ∧ k < c.sectorCount ∧
      (ringfs_format c f fs).flash.sectorStatus k = SECTOR_FREE) ∧
    ((ringfs_scan c f fs).code = 0 → ∃ k, 0 ≤ k ∧ k < c.sectorCount ∧
      (ringfs_scan c f fs).flash.sectorStatus k = SECTOR_FREE) ∧
    ((ringfs_append c f fs obj).code = 0 →
      (ringfs_append c f fs obj).flash.sectorStatus (appendNextSector c fs) = SECTOR_FREE ∧
      ∃ k, 0 ≤ k ∧ k < c.sectorCount ∧
        (ringfs_append c f fs obj).flash.sectorStatus k = SECTOR_FREE) ∧
    (∃ k, 0 ≤ k ∧ k < c.sectorCount ∧
      (ringfs_fetch c f fs buf).flash.sectorStatus k = SECTOR_FREE) ∧
    (∃ k, 0 ≤ k ∧ k < c.sectorCount ∧
      (ringfs_discard c f fs).flash.sectorStatus k = SECTOR_FREE) ∧
    (∃ k, 0 ≤ k ∧ k < c.sectorCount ∧
      (ringfs_item_discard c f fs).flash.sectorStatus k = SECTOR_FREE) ∧
    (∃ k, 0 ≤ k ∧ k < c.sectorCount ∧
      (ringfs_rewind f fs).flash.sectorStatus k = SECTOR_FREE) := by
  obtain ⟨k0, hk0, hk1, hk2⟩ := hfree
  refine ⟨?_, ?_, ?_, ⟨k0, hk0, hk1, hk2⟩, ?_, ⟨k0, hk0, hk1, hk2⟩, ⟨k0, hk0, hk1, hk2⟩⟩
  · exact ⟨0, le_rfl, by omega, ((ringfs_format_spec c f fs).1 0 le_rfl (by omega)).1⟩
  · intro h0
    have hok : scanOk c f = true := by
      rw [ringfs_scan_code_eq] at h0
      by_cases hb : scanOk c f = true
      · exact hb
      · rw [if_neg hb] at h0
        omega
    obtain ⟨k, h1, h2, h3⟩ := scanOk_free_exists c f hok
    refine ⟨k, h1, h2, ?_⟩
    rw [ringfs_scan_flash]
    exact h3
  · intro _
    have hnf := ringfs_append_next_free c f fs obj hcount
    have hnb := appendNextSector_bounds c fs (by omega) hws0
    exact ⟨hnf, appendNextSector c fs, hnb.1, hnb.2, hnf⟩
  · exact ⟨k0, hk0, hk1,
      (discardLoop_sectorStatus c (scanFuel c) f fs.read fs.cursor k0).trans hk2⟩

/-- C4 witness: on a two-sector instance with both sectors FREE and the
write head at sector 0, a successful append leaves sector 1 FREE. -/
theorem claim4_free_sector_invariant_witness :
    (2 : Int) ≤ (⟨24, 0, 2, 4, 1, 2⟩ : Config).sectorCount ∧
    (ringfs_append ⟨24, 0, 2, 4, 1, 2⟩
      ⟨fun _ => SECTOR_FREE, fun _ => 1, fun _ _ => SLOT_ERASED, fun _ _ _ => 0xFF⟩
      ⟨⟨0, 0⟩, ⟨0, 0⟩, ⟨0, 0⟩, fun _ => 0, 0⟩ (fun _ => 7)).flash.sectorStatus
      (appendNextSector ⟨24, 0, 2, 4, 1, 2⟩ ⟨⟨0, 0⟩, ⟨0, 0⟩, ⟨0, 0⟩, fun _ => 0, 0⟩) =
      SECTOR_FREE :=
  ⟨by decide,
   ((claim4_free_sector_invariant ⟨24, 0, 2, 4, 1, 2⟩
      ⟨fun _ => SECTOR_FREE, fun _ => 1, fun _ _ => SLOT_ERASED, fun _ _ _ => 0xFF⟩
      ⟨⟨0, 0⟩, ⟨0, 0⟩, ⟨0, 0⟩, fun _ => 0, 0⟩ (fun _ => 0) (fun _ => 7)
      (by decide) (by decide) (by decide)
      ⟨0, by decide, by decide, by decide⟩).2.2.1 (by decide)).1⟩

/-- C8: after format followed by scan on an instance with at least one
sector (and a version word that fits in 32 bits), scan returns 0 with
read = write = cursor = (0, 0), count_exact returns 0 and fetch returns
-1. -/
theorem claim8_format_scan_empty (c : Config) (f : Flash) (fs : RingFS) (buf : Int → Nat)
    (hcount : 1 ≤ c.sectorCount) (hv : c.version < 2 ^ 32) :
    (ringfs_scan c (ringfs_format c f fs).flash (ringfs_format c f fs).fs).code = 0 ∧
    (ringfs_scan c (ringfs_format c f fs).flash (ringfs_format c f fs).fs).fs.read =
      (⟨0, 0⟩ : Loc) ∧
    (ringfs_scan c (ringfs_format c f fs).flash (ringfs_format c f fs).fs).fs.write =
      (⟨0, 0⟩ : Loc) ∧
    (ringfs_scan c (ringfs_format c f fs).flash (ringfs_format c f fs).fs).fs.cursor =
      (⟨0, 0⟩ : Loc) ∧
    ringfs_count_exact c
      (ringfs_scan c (ringfs_format c f fs).flash (ringfs_format c f fs).fs).flash
      (ringfs_scan c (ringfs_format c f fs).flash (ringfs_format c f fs).fs).fs = 0 ∧
    (ringfs_fetch c
      (ringfs_scan c (ringfs_format c f fs).flash (ringfs_format c f fs).fs).flash
      (ringfs_scan c (ringfs_format c f fs).flash (ringfs_format c f fs).fs).fs buf).code =
      -1 := by
  have hfmt := (ringfs_format_spec c f fs).1
  have hagree : ∀ k, 0 ≤ k → k < 0 + (c.sectorCount.toNat : Int) →
      (initScanSt c (ringfs_format c f fs).flash).flash.sectorStatus k = SECTOR_FREE ∧
      (initScanSt c (ringfs_format c f fs).flash).flash.sectorVersion k = c.version := by
    intro k h1 h2
    have := hfmt k h1 (by omega)
    exact ⟨this.1, this.2.1 hv⟩
  obtain ⟨st', hpass, hflash, hrs, hws, hus, hprev, hfs⟩ :=
    scanPass1_all_free c c.sectorCount.toNat 0 (initScanSt c (ringfs_format c f fs).flash)
      hagree rfl
  have hres : scanPass1Result c (ringfs_format c f fs).flash = Sum.inr st' := hpass
  have htn : 0 < c.sectorCount.toNat := by omega
  have hok : scanOk c (ringfs_format c f fs).flash = true := by
    simp [scanOk, hres, hfs, htn]
  have hwsec : scanWriteSector c (ringfs_format c f fs).flash = 0 := by
    simp only [scanWriteSector, hres]
    rw [hus]
    rfl
  have hrsec : scanReadSector c (ringfs_format c f fs).flash = 0 := by
    simp only [scanReadSector, hres]
    rw [hrs]
    rfl
  have hflash2 : scanFlash c (ringfs_format c f fs).flash = (ringfs_format c f fs).flash := by
    simp only [scanFlash, hres]
    rw [hflash]
    rfl
  have hsl : (ringfs_format c f fs).flash.slotStatus 0 0 = SLOT_ERASED :=
    (hfmt 0 le_rfl (by omega)).2.2 0
  have hwloc : scanWriteLoc c (ringfs_format c f fs).flash = ⟨0, 0⟩ := by
    unfold scanWriteLoc
    rw [hflash2, hwsec]
    simp [scanFuel, scanWriteLoop, hsl]
  have hrloc : scanReadLoc c (ringfs_format c f fs).flash = ⟨0, 0⟩ := by
    unfold scanReadLoc
    rw [hwloc, hrsec]
    simp [scanFuel, scanReadLoop]
  have hscan := ringfs_scan_of_ok c (ringfs_format c f fs).flash (ringfs_format c f fs).fs hok
  rw [hscan]
  refine ⟨rfl, hrloc, hwloc, hrloc, ?_, ?_⟩
  · show countLoop c _ (scanWriteLoc c (ringfs_format c f fs).flash) (scanFuel c)
      (scanReadLoc c (ringfs_format c f fs).flash) 0 = 0
    rw [hwloc, hrloc]
    simp [scanFuel, countLoop]
  · show (fetchLoop c _ (scanWriteLoc c (ringfs_format c f fs).flash) (scanFuel c)
      (scanReadLoc c (ringfs_format c f fs).flash) buf).2.2 = -1
    rw [hwloc, hrloc]
    simp [scanFuel, fetchLoop]

/-- C8 witness: format-then-scan on a concrete 2-sector instance mounts
empty. -/
theorem claim8_format_scan_empty_witness :
    (1 : Int) ≤ (⟨24, 0, 2, 4, 1, 2⟩ : Config).sectorCount ∧
    (ringfs_scan ⟨24, 0, 2, 4, 1, 2⟩
      (ringfs_format ⟨24, 0, 2, 4, 1, 2⟩
        ⟨fun _ => 0, fun _ => 0, fun _ _ => 0, fun _ _ _ => 0⟩
        ⟨⟨1, 1⟩, ⟨1, 1⟩, ⟨1, 1⟩, fun _ => 0, 0⟩).flash
      (ringfs_format ⟨24, 0, 2, 4, 1, 2⟩
        ⟨fun _ => 0, fun _ => 0, fun _ _ => 0, fun _ _ _ => 0⟩
        ⟨⟨1, 1⟩, ⟨1, 1⟩, ⟨1, 1⟩, fun _ => 0, 0⟩).fs).code = 0 :=
  ⟨by decide,
   (claim8_format_scan_empty ⟨24, 0, 2, 4, 1, 2⟩
      ⟨fun _ => 0, fun _ => 0, fun _ _ => 0, fun _ _ _ => 0⟩
      ⟨⟨1, 1⟩, ⟨1, 1⟩, ⟨1, 1⟩, fun _ => 0, 0⟩ (fun _ => 0) (by decide) (by decide)).1⟩

/-- C6: when scan returns 0, the write head it reconstructs is the first
ERASED slot of the write sector scanning from slot 0 (slot 0 of the
following sector if none is ERASED, wrapping to sector 0 at the end), the
read head is the first VALID slot scanning from slot 0 of the read sector
(stopping at write when no VALID slot is met), and cursor equals read. -/
theorem claim6_scan_positions (c : Config) (f : Flash) (fs : RingFS)
    (hsps : 1 ≤ c.slotsPerSector) (hcount : 2 ≤ c.sectorCount)
    (h0 : (ringfs_scan c f fs).code = 0) :
    (ringfs_scan c f fs).fs.write = scanWriteLoc c f ∧
    (ringfs_scan c f fs).fs.read = scanReadLoc c f ∧
    (ringfs_scan c f fs).fs.cursor = (ringfs_scan c f fs).fs.read ∧
    (∀ j0 : Int, 0 ≤ j0 → j0 < c.slotsPerSector →
      (scanFlash c f).slotStatus (scanWriteSector c f) j0 = SLOT_ERASED →
      (∀ i : Int, 0 ≤ i → i < j0 →
        (scanFlash c f).slotStatus (scanWriteSector c f) i ≠ SLOT_ERASED) →
      scanWriteLoc c f = ⟨scanWriteSector c f, j0⟩) ∧
    ((∀ i : Int, 0 ≤ i → i < c.slotsPerSector →
        (scanFlash c f).slotStatus (scanWriteSector c f) i ≠ SLOT_ERASED) →
      scanWriteLoc c f =
        (if scanWriteSector c f + 1 < c.sectorCount
         then (⟨scanWriteSector c f + 1, 0⟩ : Loc) else ⟨0, 0⟩)) ∧
    (∀ k0 : Nat, (k0 : Int) < ringDist c ⟨scanReadSector c f, 0⟩ (scanWriteLoc c f) →
      (scanFlash c f).slotStatus (locIter c k0 ⟨scanReadSector c f, 0⟩).sector
        (locIter c k0 ⟨scanReadSector c f, 0⟩).slot = SLOT_VALID →
      (∀ j : Nat, j < k0 →
        (scanFlash c f).slotStatus (locIter c j ⟨scanReadSector c f, 0⟩).sector
          (locIter c j ⟨scanReadSector c f, 0⟩).slot ≠ SLOT_VALID) →
      scanReadLoc c f = locIter c k0 ⟨scanReadSector c f, 0⟩) ∧
    ((∀ k : Nat, (k : Int) < ringDist c ⟨scanReadSector c f, 0⟩ (scanWriteLoc c f) →
        (scanFlash c f).slotStatus (locIter c k ⟨scanReadSector c f, 0⟩).sector
          (locIter c k ⟨scanReadSector c f, 0⟩).slot ≠ SLOT_VALID) →
      scanReadLoc c f = scanWriteLoc c f) := by
  have hok : scanOk c f = true := by
    by_cases hh : scanOk c f = true
    · exact hh
    · exfalso
      have hff : scanOk c f = false := by
        cases hcase : scanOk c f
        · rfl
        · exact absurd hcase hh
      unfold ringfs_scan at h0
      rw [hff] at h0
      simp at h0
  have hb := scan_sectors_bounds c f (by omega) hok
  obtain ⟨hws0, hws1, hrs0, hrs1⟩ := hb
  have hwR : inRange c (scanWriteLoc c f) :=
    scanWriteLoop_inRange c (scanFlash c f) (scanWriteSector c f) (scanFuel c)
      ⟨scanWriteSector c f, 0⟩ ⟨hws0, hws1, le_rfl, show (0 : Int) < c.slotsPerSector by omega⟩
  have hrR : inRange c (⟨scanReadSector c f, 0⟩ : Loc) :=
    ⟨hrs0, hrs1, le_rfl, show (0 : Int) < c.slotsPerSector by omega⟩
  have hscan := ringfs_scan_of_ok c f fs hok
  rw [hscan]
  have hmul1 : c.slotsPerSector.toNat ≤ c.sectorCount.toNat * c.slotsPerSector.toNat :=
    Nat.le_mul_of_pos_left c.slotsPerSector.toNat (by omega)
  have hmul2 : 2 * c.slotsPerSector.toNat ≤ c.sectorCount.toNat * c.slotsPerSector.toNat :=
    Nat.mul_le_mul_right c.slotsPerSector.toNat (by omega)
  refine ⟨rfl, rfl, rfl, ?_, ?_, ?_, ?_⟩
  · intro j0 h1 h2 hst hmin
    unfold scanWriteLoc
    exact scanWriteLoop_found c (scanFlash c f) (scanWriteSector c f) j0.toNat (scanFuel c)
      0 j0 le_rfl h1 h2 (by omega) (by unfold scanFuel; omega) hst
      (fun i hi1 hi2 => hmin i hi1 hi2)
  · intro hall
    unfold scanWriteLoc
    exact scanWriteLoop_none c (scanFlash c f) (scanWriteSector c f) hws0 hws1 hcount
      (c.slotsPerSector - 1 - 0).toNat (scanFuel c) 0 le_rfl (by omega) rfl
      (by unfold scanFuel; omega) (fun i hi1 hi2 => hall i hi1 hi2)
  · intro k0 hk hv hmin
    unfold scanReadLoc
    exact scanReadLoop_found c (scanFlash c f) (scanWriteLoc c f) hwR k0 (scanFuel c)
      ⟨scanReadSector c f, 0⟩ hrR hk (ringDist_toNat_lt_fuel hrR hwR) hv hmin
  · intro hall
    unfold scanReadLoc
    exact scanReadLoop_none c (scanFlash c f) (scanWriteLoc c f) hwR
      (ringDist c ⟨scanReadSector c f, 0⟩ (scanWriteLoc c f)).toNat (scanFuel c)
      ⟨scanReadSector c f, 0⟩ hrR rfl (ringDist_toNat_lt_fuel hrR hwR) hall

/-- C6 witness: on a concrete 2-sector flash whose sector 0 is IN_USE with
slot 0 VALID and slot 1 ERASED, scan succeeds and places the write head at
slot 1 of sector 0. -/
theorem claim6_scan_positions_witness :
    (ringfs_scan ⟨24, 0, 2, 4, 1, 2⟩
      ⟨fun k => if k = 0 then SECTOR_IN_USE else SECTOR_FREE, fun _ => 1,
       fun k j => if k = 0 ∧ j = 0 then SLOT_VALID else SLOT_ERASED, fun _ _ _ => 0⟩
      ⟨⟨0, 0⟩, ⟨0, 0⟩, ⟨0, 0⟩, fun _ => 0, 0⟩).code = 0 ∧
    scanWriteLoc ⟨24, 0, 2, 4, 1, 2⟩
      ⟨fun k => if k = 0 then SECTOR_IN_USE else SECTOR_FREE, fun _ => 1,
       fun k j => if k = 0 ∧ j = 0 then SLOT_VALID else SLOT_ERASED, fun _ _ _ => 0⟩ =
      ⟨scanWriteSector ⟨24, 0, 2, 4, 1, 2⟩
        ⟨fun k => if k = 0 then SECTOR_IN_USE else SECTOR_FREE, fun _ => 1,
         fun k j => if k = 0 ∧ j = 0 then SLOT_VALID else SLOT_ERASED, fun _ _ _ => 0⟩, 1⟩ :=
  ⟨by decide,
   (claim6_scan_positions ⟨24, 0, 2, 4, 1, 2⟩
      ⟨fun k => if k = 0 then SECTOR_IN_USE else SECTOR_FREE, fun _ => 1,
       fun k j => if k = 0 ∧ j = 0 then SLOT_VALID else SLOT_ERASED, fun _ _ _ => 0⟩
      ⟨⟨0, 0⟩, ⟨0, 0⟩, ⟨0, 0⟩, fun _ => 0, 0⟩ (by decide) (by decide)
      (by decide)).2.2.2.1 1 (by decide) (by decide) (by decide)
      (fun i h1 h2 => by
        have hi : i = 0 := by omega
        subst hi
        decide)⟩
